import Mathlib

/-!
# Validation harness and enhancement script of the simple web page

A shallow embedding of

* the regular-expression based checks of `heading-hierarchy.property.test.js`,
  `semantic-html.property.test.js` and `navigation-interaction.property.test.js`;
* the load-time behaviour of `main.js`.

Markup text is a `List Char`; one element stands for one code unit of the
JavaScript string.  Every pattern used by the harness is built from ASCII
literals and negated one-character classes, so a character outside the basic
plane (two code units, both different from `<` and `>`) is matched the same way
as its single `Char`.

A failing `expect(...)` throws; checks are therefore functions into
`Except Failure _`, the error recording which assertion threw.
-/

deriving instance DecidableEq for Except

namespace WebPage

/-! ## Regular expressions of the harness -/

/-- Quantifier of one pattern item: exactly one, `*` or `+` (both greedy). -/
inductive Quant where
  | one
  | star
  | plus
  deriving DecidableEq, Repr

/-- One item of a pattern: a character test, its quantifier, and whether the
item is wrapped in a capture group `( ... )`. -/
structure Item where
  test : Char → Bool
  quant : Quant
  capture : Bool

/-- Literal character under the `i` flag: the two characters agree after
upper-casing.  (Canonicalisation of the `i` flag never maps a non-ASCII
character onto an ASCII one, as `Char.toUpper` does not.) -/
def lit (p : Char) : Item :=
  ⟨fun c => c.toUpper == p.toUpper, Quant.one, false⟩

/-- Literal string under the `i` flag. -/
def lits (s : String) : List Item :=
  s.toList.map lit

/-- The class `[1-6]`. -/
def digit16 (c : Char) : Bool :=
  decide (49 ≤ c.toNat) && decide (c.toNat ≤ 54)

/-- The negated class `[^x]`. -/
def notChar (x : Char) (c : Char) : Bool :=
  c != x

/-- Greedy repetition of a character test followed by the continuation `k` of
the pattern: the longest run is tried first, and on failure of the continuation
the run is given back one character at a time (backtracking).  The result is
the run that was consumed together with the result of the continuation. -/
def greedy {α : Type} (p : Char → Bool) (k : List Char → Option α) :
    List Char → Option (List Char × α)
  | [] => (k []).map fun r => ([], r)
  | c :: cs =>
    if p c then
      match greedy p k cs with
      | some (seg, r) => some (c :: seg, r)
      | none => (k (c :: cs)).map fun r => ([], r)
    else (k (c :: cs)).map fun r => ([], r)

/-- Backtracking match of a pattern at the start of `s`.  On success the result
lists, item by item, the characters each item consumed. -/
def matchItems : List Item → List Char → Option (List (List Char))
  | [], _ => some []
  | ⟨p, Quant.one, _⟩ :: rest, s =>
    match s with
    | [] => none
    | c :: cs => if p c then (matchItems rest cs).map fun r => [c] :: r else none
  | ⟨p, Quant.star, _⟩ :: rest, s =>
    (greedy p (matchItems rest) s).map fun r => r.1 :: r.2
  | ⟨p, Quant.plus, _⟩ :: rest, s =>
    match s with
    | [] => none
    | c :: cs =>
      if p c then (greedy p (matchItems rest) cs).map fun r => (c :: r.1) :: r.2
      else none

/-- A successful match: `index` is `match.index`, `segs` the characters consumed
by each item of the pattern. -/
structure RegexMatch where
  index : Nat
  segs : List (List Char)
  deriving DecidableEq, Repr

/-- The matched text, `match[0]`. -/
def RegexMatch.text (m : RegexMatch) : List Char :=
  m.segs.flatten

/-- The capture groups `match[1]`, `match[2]`, ... in order. -/
def captures (re : List Item) (segs : List (List Char)) : List (List Char) :=
  ((re.zip segs).filter fun x => x.1.capture).map fun x => x.2

/-- The `n`-th capture group, `match[n]` for `n ≥ 1`. -/
def group (re : List Item) (m : RegexMatch) (n : Nat) : List Char :=
  (captures re m.segs).getD (n - 1) []

/-- All matches of a global (`g`) pattern, as produced by calling `exec` until
it returns `null` or by `String.prototype.match`: the text is scanned from left
to right; after a match the scan resumes at `lastIndex`, the end of that match.
`pos` is the index of the head of the remaining text and `skip` the number of
characters still to pass before `lastIndex` is reached.  Every pattern of the
harness starts with the literal `<`, so no match is empty and none starts at
the end of the text. -/
def scanFrom (re : List Item) : List Char → Nat → Nat → List RegexMatch
  | [], _, _ => []
  | _ :: cs, pos, skip + 1 => scanFrom re cs (pos + 1) skip
  | c :: cs, pos, 0 =>
    match matchItems re (c :: cs) with
    | some segs => ⟨pos, segs⟩ :: scanFrom re cs (pos + 1) (segs.flatten.length - 1)
    | none => scanFrom re cs (pos + 1) 0

/-- All matches of a global pattern in `s`. -/
def matchAll (re : List Item) (s : List Char) : List RegexMatch :=
  scanFrom re s 0 0

/-- First match of a pattern without the `g` flag (`str.match(re)`), if any. -/
def firstMatch (re : List Item) : List Char → Nat → Option RegexMatch
  | [], _ => none
  | c :: cs, pos =>
    match matchItems re (c :: cs) with
    | some segs => some ⟨pos, segs⟩
    | none => firstMatch re cs (pos + 1)

/-! ## Strings -/

/-- White space of `String.prototype.trim` and of the class `\s`: the
WhiteSpace and LineTerminator code points. -/
def isWhiteSpace (c : Char) : Bool :=
  let n := c.toNat
  decide (9 ≤ n ∧ n ≤ 13) || n == 32 || n == 0xA0 || n == 0x1680 ||
    decide (0x2000 ≤ n ∧ n ≤ 0x200A) || n == 0x2028 || n == 0x2029 ||
    n == 0x202F || n == 0x205F || n == 0x3000 || n == 0xFEFF

/-- The method `String.prototype.trim`. -/
def trim (s : List Char) : List Char :=
  ((s.dropWhile isWhiteSpace).reverse.dropWhile isWhiteSpace).reverse

/-- Value of a decimal digit. -/
def digitValue (c : Char) : Nat :=
  c.toNat - 48

/-- The function `parseInt` on the strings it receives here: the leading run of
decimal digits read in base ten.  Each argument is the capture `([1-6])`, one
digit; a string without leading digit (NaN in JavaScript) reads as 0. -/
def parseInt (s : List Char) : Nat :=
  (s.takeWhile Char.isDigit).foldl (fun acc c => 10 * acc + digitValue c) 0

/-! ## Heading hierarchy tests -/

/-- An assertion that threw. -/
inductive Failure where
  /-- `expect(level).toBe(1)` on the first heading, with the level received. -/
  | firstNotH1 (level : Nat)
  /-- `expect(cur - prev).toBeLessThanOrEqual(1)` at heading index `i`. -/
  | jump (i prev cur : Nat)
  /-- `expect(text.length).toBeGreaterThan(0)`. -/
  | emptyText
  /-- `expect(text).not.toMatch(/^\s*$/)`. -/
  | blankText
  /-- `expect(openTags.length).toBe(closeTags.length)`. -/
  | unbalanced (opened closed : Nat)
  /-- `expect(tag.toLowerCase()).toMatch(...)`. -/
  | tagName
  /-- `expect(x).toBeTruthy()` or `expect(x).toBe(true)` on a navigation link;
  `link` is the index of the link, `what` names the value. -/
  | navLink (link : Nat) (what : String)
  /-- A property handed to `fc.property` returned `false`. -/
  | returnedFalse
  deriving DecidableEq, Repr

/-- The pattern `/<h([1-6])[^>]*>([^<]+)<\/h[1-6]>/gi`. -/
def headingRegex : List Item :=
  [lit '<', lit 'h', ⟨digit16, Quant.one, true⟩, ⟨notChar '>', Quant.star, false⟩, lit '>',
   ⟨notChar '<', Quant.plus, true⟩, lit '<', lit '/', lit 'h', ⟨digit16, Quant.one, false⟩,
   lit '>']

/-- The pattern `/<h([1-6])[^>]*>/gi` of the ordering test. -/
def openingRegex : List Item :=
  [lit '<', lit 'h', ⟨digit16, Quant.one, true⟩, ⟨notChar '>', Quant.star, false⟩, lit '>']

/-- Heading record pushed by the extraction loop. -/
structure Heading where
  level : Nat
  text : List Char
  position : Nat
  deriving DecidableEq, Repr

/-- The extraction loop of Property 4:
`while ((match = headingRegex.exec(htmlContent)) !== null) headings.push(...)`. -/
def headings (htmlContent : List Char) : List Heading :=
  (matchAll headingRegex htmlContent).map fun m =>
    { level := parseInt (group headingRegex m 1)
      text := trim (group headingRegex m 2)
      position := m.index }

/-- The extraction loop of the ordering test:
`while (...) levels.push(parseInt(match[1]))`. -/
def levels (htmlContent : List Char) : List Nat :=
  (matchAll openingRegex htmlContent).map fun m => parseInt (group openingRegex m 1)

/-- The loop `for (let i = 1; i < levels.length; i++)` of the ordering test,
entered with `prev = levels[i - 1]` and the levels from index `i` on. -/
def checkJumps (i : Nat) (prev : Nat) : List Nat → Except Failure Unit
  | [] => Except.ok ()
  | cur :: rest =>
    if cur > prev ∧ ¬ (cur - prev ≤ 1) then Except.error (Failure.jump i prev cur)
    else checkJumps (i + 1) cur rest

/-- The two checks of the ordering test on the extracted levels. -/
def checkLevels : List Nat → Except Failure Unit
  | [] => Except.ok ()
  | first :: rest =>
    if first = 1 then checkJumps 1 first rest else Except.error (Failure.firstNotH1 first)

/-- The test "标题层次应该遵循逻辑顺序" (headings follow a logical order). -/
def headingOrderTest (htmlContent : List Char) : Except Failure Unit :=
  checkLevels (levels htmlContent)

/-- The property of Property 4, the function handed to `fc.property`. -/
def property4 (hs : List Heading) (headingIndex : Nat) : Except Failure Bool :=
  match hs[headingIndex]? with
  | none => Except.ok true
  | some currentHeading =>
    if headingIndex = 0 then
      if currentHeading.level = 1 then Except.ok true
      else Except.error (Failure.firstNotH1 currentHeading.level)
    else
      match hs[headingIndex - 1]? with
      | none => Except.ok true
      | some previousHeading =>
        if currentHeading.level > previousHeading.level ∧
            ¬ (currentHeading.level - previousHeading.level ≤ 1) then
          Except.error (Failure.jump headingIndex previousHeading.level currentHeading.level)
        else if currentHeading.text.length > 0 then Except.ok true
        else Except.error Failure.emptyText

/-- The call `fc.assert(fc.property(arb, prop))`: the property is run on the
values drawn from the arbitrary, here the list `draws`; the first run that
throws or returns `false` fails the test. -/
def fcAssert {α : Type} (prop : α → Except Failure Bool) : List α → Except Failure Unit
  | [] => Except.ok ()
  | x :: xs =>
    match prop x with
    | Except.ok true => fcAssert prop xs
    | Except.ok false => Except.error Failure.returnedFalse
    | Except.error e => Except.error e

/-- The test "Property 4: 标题层次结构" on the heading indices `draws` that
fast-check draws from `headings.map((_, index) => index)`. -/
def property4Test (htmlContent : List Char) (draws : List Nat) : Except Failure Unit :=
  fcAssert (property4 (headings htmlContent)) draws

/-- The callback of `forEach` run on each element in turn; a throw ends the
loop.  The index of the element is passed along. -/
def forEachFrom {α : Type} (f : Nat → α → Except Failure Unit) :
    Nat → List α → Except Failure Unit
  | _, [] => Except.ok ()
  | i, x :: xs =>
    match f i x with
    | Except.ok _ => forEachFrom f (i + 1) xs
    | Except.error e => Except.error e

/-- The pattern built by
``new RegExp(`<h${level}[^>]*>([^<]+)<\/h${level}>`, 'gi')``. -/
def levelRegex (level : Nat) : List Item :=
  lits "<h" ++ lits (toString level) ++
    [⟨notChar '>', Quant.star, false⟩, lit '>', ⟨notChar '<', Quant.plus, true⟩] ++
    lits "</h" ++ lits (toString level) ++ [lit '>']

/-- The two assertions on one matched heading of the text test: the callback of
`matches.forEach`. -/
def checkHeadingText (level : Nat) (matched : List Char) : Except Failure Unit :=
  match firstMatch (levelRegex level) matched 0 with
  | none => Except.ok ()
  | some contentMatch =>
    let text := trim (group (levelRegex level) contentMatch 1)
    if text.length > 0 then
      -- `/^\s*$/` matches exactly the strings made of white space only
      if text.all isWhiteSpace then Except.error Failure.blankText else Except.ok ()
    else Except.error Failure.emptyText

/-- The property of the test "标题应该有有意义的文本内容" (headings have
meaningful text) for one level. -/
def headingTextProperty (htmlContent : List Char) (level : Nat) : Except Failure Bool :=
  let found := (matchAll (levelRegex level) htmlContent).map RegexMatch.text
  match forEachFrom (fun _ m => checkHeadingText level m) 0 found with
  | Except.ok _ => Except.ok true
  | Except.error e => Except.error e

/-- The test "标题应该有有意义的文本内容" on the levels `draws` that fast-check
draws from `fc.integer(\x7b min: 1, max: 6 \x7d)`. -/
def headingTextTest (htmlContent : List Char) (draws : List Nat) : Except Failure Unit :=
  fcAssert (headingTextProperty htmlContent) draws

/-! ## Semantic tag test -/

/-- The constants of `fc.constantFrom` in Property 2. -/
def semanticTags : List String :=
  ["header", "nav", "main", "footer", "section", "article", "aside",
   "h1", "h2", "h3", "h4", "h5", "h6"]

/-- The pattern ``new RegExp(`<${semanticTag}[^>]*>`, 'gi')``. -/
def tagRegex (semanticTag : String) : List Item :=
  lit '<' :: lits semanticTag ++ [⟨notChar '>', Quant.star, false⟩, lit '>']

/-- The pattern ``new RegExp(`</${semanticTag}>`, 'gi')``. -/
def closingTagRegex (semanticTag : String) : List Item :=
  lits "</" ++ lits semanticTag ++ [lit '>']

/-- The value `openTags` (the array of matched texts, `[]` without match). -/
def openTags (htmlContent : List Char) (semanticTag : String) : List (List Char) :=
  (matchAll (tagRegex semanticTag) htmlContent).map RegexMatch.text

/-- The value `closeTags`. -/
def closeTags (htmlContent : List Char) (semanticTag : String) : List (List Char) :=
  (matchAll (closingTagRegex semanticTag) htmlContent).map RegexMatch.text

/-- The property of Property 2 for one tag.  `toLowerCase` is the method
`String.prototype.toLowerCase` of the engine. -/
def semanticTagProperty (toLowerCase : List Char → List Char) (htmlContent : List Char)
    (semanticTag : String) : Except Failure Bool :=
  let opened := openTags htmlContent semanticTag
  let closed := closeTags htmlContent semanticTag
  if opened.length > 0 then
    if opened.length = closed.length then
      match forEachFrom (fun _ tag =>
          if (firstMatch (tagRegex semanticTag) (toLowerCase tag) 0).isSome then Except.ok ()
          else Except.error Failure.tagName) 0 opened with
      | Except.ok _ => Except.ok true
      | Except.error e => Except.error e
    else Except.error (Failure.unbalanced opened.length closed.length)
  else Except.ok true

/-- The test "Property 2: 语义化HTML标签使用" on the tags `draws` that fast-check
draws from `semanticTags`. -/
def semanticTagTest (toLowerCase : List Char → List Char) (htmlContent : List Char)
    (draws : List String) : Except Failure Unit :=
  fcAssert (semanticTagProperty toLowerCase htmlContent) draws

/-! ## Navigation link test -/

/-- What the accessibility test reads of one element of
`document.querySelectorAll('nav a')`: `getAttribute` gives `none` for `null`. -/
structure NavLink where
  ariaLabel : Option (List Char)
  href : Option (List Char)
  textContent : List Char
  deriving DecidableEq, Repr

/-- Truthiness of the result of `getAttribute`: neither `null` nor `""`. -/
def truthy : Option (List Char) → Bool
  | some (_ :: _) => true
  | _ => false

/-- The method `href.startsWith('#')`. -/
def startsWithHash : Option (List Char) → Bool
  | some ('#' :: _) => true
  | _ => false

/-- The callback of `navLinks.forEach` in the test "导航链接可访问性验证". -/
def checkNavLink (i : Nat) (link : NavLink) : Except Failure Unit :=
  if truthy link.ariaLabel then
    if truthy link.href then
      if startsWithHash link.href then
        if (trim link.textContent).length > 0 then Except.ok ()
        else Except.error (Failure.navLink i "textContent")
      else Except.error (Failure.navLink i "href.startsWith")
    else Except.error (Failure.navLink i "href")
  else Except.error (Failure.navLink i "aria-label")

/-- The test "导航链接可访问性验证" (navigation link accessibility). -/
def navAccessibilityTest (navLinks : List NavLink) : Except Failure Unit :=
  forEachFrom checkNavLink 0 navLinks

/-! ## The enhancement script `main.js`

The browser is split in two: `Browser` holds what the script only probes
(capabilities, user agent), `Page` what it reads and changes (the document and
the registrations the script makes).  Nodes are named by numbers. -/

/-- An exception thrown by the script. -/
inductive JsError where
  /-- Read of an undeclared global, such as `CSS` where the CSS API is absent. -/
  | referenceError (name : String)
  /-- Call of something that is not a function, or member access on `null`. -/
  | typeError (what : String)
  deriving DecidableEq, Repr

/-- The global `CSS`: absent, present without the method `supports`, or present
with it. -/
inductive CssApi where
  | absent
  | withoutSupports
  | supports (f : String → String → Bool)

/-- What the script probes of its environment. -/
structure Browser where
  /-- Result of `'PerformanceObserver' in window`. -/
  performanceObserver : Bool
  /-- Whether creating the observer or `observe(\x7b entryTypes: ['navigation'] \x7d)`
  throws. -/
  observeThrows : Bool
  /-- Result of `'IntersectionObserver' in window`. -/
  intersectionObserver : Bool
  css : CssApi
  /-- Result of `'performance' in window && 'getEntriesByType' in performance`. -/
  getEntriesByType : Bool
  /-- Result of `'visibilityState' in document`. -/
  visibilityState : Bool
  /-- Whether `Element.prototype.closest` exists. -/
  closest : Bool
  /-- Whether `Element.prototype.matches` exists. -/
  elementMatches : Bool
  userAgent : List Char

/-- An `img` element with the value of its `loading` attribute. -/
structure Img where
  node : Nat
  loading : Option (List Char)
  deriving DecidableEq, Repr

/-- An `a` element with the value of its `href` attribute. -/
structure Anchor where
  node : Nat
  href : Option (List Char)
  deriving DecidableEq, Repr

/-- An element of the document with its ID: the value of the `id` attribute, and
`[]` for an element without ID (attribute absent or empty). -/
structure Element where
  node : Nat
  id : List Char
  deriving DecidableEq, Repr

/-- A child of `document.head`: some node already there, or a `link` element
created by the script. -/
inductive HeadChild where
  | node (n : Nat)
  | link (rel href : String)
  deriving DecidableEq, Repr

/-- The document and the registrations made by the script.  Element lists are
in tree order.  The document is taken with its `body` parsed, as it is for a
script placed at the end of the body. -/
structure Page where
  imgs : List Img
  anchors : List Anchor
  elements : List Element
  head : List HeadChild
  bodyClasses : List String
  /-- Class lists of the elements matching `.services-grid, .contact-methods`. -/
  gridElements : List (List String)
  console : List String
  /-- Event types with a listener added on `document`, resp. `window`. -/
  documentListeners : List String
  windowListeners : List String
  /-- Whether the performance observer observes navigation entries. -/
  performanceObserving : Bool
  /-- Observation targets of `imageObserver`. -/
  observed : List Nat
  /-- Anchors that carry the smooth-scroll click listener. -/
  clickListeners : List Nat
  closestPolyfill : Bool
  matchesPolyfill : Bool
  deriving DecidableEq, Repr

/-- The call `console.log(msg, ...)`. -/
def Page.log (p : Page) (msg : String) : Page :=
  { p with console := p.console ++ [msg] }

/-- The method `classList.add`. -/
def classListAdd (classes : List String) (c : String) : List String :=
  if c ∈ classes then classes else classes ++ [c]

/-- Whether `s` starts with `p`. -/
def startsWith : List Char → List Char → Bool
  | _, [] => true
  | [], _ :: _ => false
  | c :: cs, p :: ps => c == p && startsWith cs ps

/-- The method `String.prototype.indexOf`, searching from index `pos` of the
original string on. -/
def indexOfFrom (needle : List Char) : List Char → Nat → Int
  | [], pos => if needle = [] then pos else -1
  | c :: cs, pos =>
    if startsWith (c :: cs) needle then pos else indexOfFrom needle cs (pos + 1)

/-- The method `String.prototype.indexOf`. -/
def indexOf (s needle : List Char) : Int :=
  indexOfFrom needle s 0

/-- The block "性能监控" at the start of the script. -/
def setupPerformanceObserver (b : Browser) (p : Page) : Page :=
  if b.performanceObserver then
    if b.observeThrows then p.log "性能监控不支持"
    else { p with performanceObserving := true }
  else p

/-- The selector `img[loading="lazy"]`. -/
def lazyImages (p : Page) : List Img :=
  p.imgs.filter fun img => img.loading == some "lazy".toList

/-- The method `observer.observe(target)`. -/
def observe (observed : List Nat) (target : Nat) : List Nat :=
  if target ∈ observed then observed else observed ++ [target]

/-- The method `observer.unobserve(target)`. -/
def unobserve (observed : List Nat) (target : Nat) : List Nat :=
  observed.filter fun n => n != target

/-- The function `optimizeImages`: the new observer starts without targets and
observes each lazy image. -/
def optimizeImages (b : Browser) (p : Page) : Page :=
  let images := lazyImages p
  if b.intersectionObserver then
    { p with observed := images.foldl (fun obs img => observe obs img.node) [] }
  else p

/-- An `IntersectionObserverEntry`. -/
structure Entry where
  isIntersecting : Bool
  target : Nat
  deriving DecidableEq, Repr

/-- The callback given to `new IntersectionObserver(...)` in `optimizeImages`,
run on a batch of entries. -/
def imageObserverCallback (entries : List Entry) (p : Page) : Page :=
  entries.foldl
    (fun q entry =>
      if entry.isIntersecting then { q with observed := unobserve q.observed entry.target }
      else q)
    p

/-- The selector `a[href^="#"]`. -/
def hashLinks (p : Page) : List Anchor :=
  p.anchors.filter fun a => startsWithHash a.href

/-- The function `initSmoothScroll`. -/
def initSmoothScroll (p : Page) : Page :=
  { p with clickListeners := p.clickListeners ++ (hashLinks p).map fun a => a.node }

/-- The method `document.getElementById`: the first element in tree order whose
ID is `elementId`. -/
def getElementById (p : Page) (elementId : List Char) : Option Element :=
  p.elements.find? fun e => e.id != [] && e.id == elementId

/-- A call `target.scrollIntoView(\x7b behavior, block \x7d)` handed to
`requestAnimationFrame`. -/
structure ScrollRequest where
  target : Nat
  behavior : String
  block : String
  deriving DecidableEq, Repr

/-- What one run of the click listener did. -/
structure ClickOutcome where
  defaultPrevented : Bool
  frames : List ScrollRequest
  thrown : Option JsError
  deriving DecidableEq, Repr

/-- The click listener added by `initSmoothScroll`, run with `this = link`. -/
def smoothScrollClick (p : Page) (link : Anchor) : ClickOutcome :=
  -- e.preventDefault()
  match link.href with
  | none => ⟨true, [], some (JsError.typeError "getAttribute('href') is null")⟩
  | some href =>
    let targetId := href.drop 1
    match getElementById p targetId with
    | some targetElement => ⟨true, [⟨targetElement.node, "smooth", "start"⟩], none⟩
    | none => ⟨true, [], none⟩

/-- The constant `criticalImages`. -/
def criticalImages : List String :=
  ["assets/images/web-design-icon.svg",
   "assets/images/responsive-icon.svg",
   "assets/images/accessibility-icon.svg",
   "assets/images/performance-icon.svg"]

/-- The function `preloadResources`. -/
def preloadResources (p : Page) : Page :=
  criticalImages.foldl (fun q src => { q with head := q.head ++ [HeadChild.link "prefetch" src] }) p

/-- The listener for `DOMContentLoaded`. -/
def onDOMContentLoaded (b : Browser) (p : Page) : Page :=
  let p := p.log "简单网页系统已加载"
  let p := optimizeImages b p
  let p := initSmoothScroll p
  let p := preloadResources p
  if b.getEntriesByType then { p with windowListeners := p.windowListeners ++ ["load"] }
  else p

/-- The immediately invoked function at the start of the script. -/
def mainFunction (b : Browser) (p : Page) : Page :=
  let p := setupPerformanceObserver b p
  let p := { p with documentListeners := p.documentListeners ++ ["DOMContentLoaded"] }
  if b.visibilityState then
    { p with documentListeners := p.documentListeners ++ ["visibilitychange"] }
  else p

/-- The two polyfill blocks. -/
def installPolyfills (b : Browser) (p : Page) : Page :=
  { p with closestPolyfill := !b.closest, matchesPolyfill := !b.elementMatches }

/-- The object returned by `detectBrowserSupport`. -/
structure Support where
  flexbox : Bool
  grid : Bool
  customProperties : Bool
  intersectionObserver : Bool
  performanceObserver : Bool
  deriving DecidableEq, Repr

/-- The function `detectBrowserSupport`.  The first property to be evaluated is
`CSS.supports('display', 'flex')`. -/
def detectBrowserSupport (b : Browser) (p : Page) : Except JsError (Support × Page) :=
  match b.css with
  | CssApi.absent => Except.error (JsError.referenceError "CSS")
  | CssApi.withoutSupports => Except.error (JsError.typeError "CSS.supports is not a function")
  | CssApi.supports f =>
    Except.ok
      ({ flexbox := f "display" "flex"
         grid := f "display" "grid"
         customProperties := f "color" "var(--test)"
         intersectionObserver := b.intersectionObserver
         performanceObserver := b.performanceObserver },
       p.log "浏览器支持情况:")

/-- The fallback block `if (!browserSupport.intersectionObserver)`. -/
def lazyFallback (browserSupport : Support) (p : Page) : Page :=
  if !browserSupport.intersectionObserver then
    { p with imgs := p.imgs.map fun img =>
        if img.loading == some "lazy".toList then { img with loading := none } else img }
  else p

/-- The three user-agent blocks at the end of the script. -/
def tagBrowser (b : Browser) (p : Page) : Page :=
  let p :=
    if indexOf b.userAgent "Trident".toList ≠ -1 then
      { p with
        bodyClasses := classListAdd p.bodyClasses "ie11"
        gridElements := p.gridElements.map fun cl => classListAdd cl "ie11-flex-fallback" }
    else p
  let p :=
    if indexOf b.userAgent "Safari".toList ≠ -1 ∧ indexOf b.userAgent "Chrome".toList = -1 then
      { p with bodyClasses := classListAdd p.bodyClasses "safari" }
    else p
  if indexOf b.userAgent "Firefox".toList ≠ -1 then
    { p with bodyClasses := classListAdd p.bodyClasses "firefox" }
  else p

/-- Evaluation of the whole script at load time. -/
def loadScript (b : Browser) (p : Page) : Except JsError Page :=
  let p := mainFunction b p
  let p := installPolyfills b p
  match detectBrowserSupport b p with
  | Except.error e => Except.error e
  | Except.ok (browserSupport, p) =>
    let p := lazyFallback browserSupport p
    Except.ok (tagBrowser b p)

/-! ## The polyfills of `main.js` -/

/-- A node together with its chain of ancestors: `root` has `parentNode` equal
to `null`, `child` has the given parent.  The chain of a node of a finite tree
is finite. -/
inductive DomNode where
  | root (node : Nat) (kind : Nat)
  | child (node : Nat) (kind : Nat) (parent : DomNode)
  deriving DecidableEq, Repr

/-- The property `nodeType` (1 for an element, 9 for a document, 11 for a
document fragment). -/
def DomNode.nodeType : DomNode → Nat
  | DomNode.root _ kind => kind
  | DomNode.child _ kind _ => kind

/-- The property `parentNode`. -/
def DomNode.parentNode : DomNode → Option DomNode
  | DomNode.root _ _ => none
  | DomNode.child _ _ parent => some parent

/-- The property `parentElement`: the parent if it is an element, else `null`. -/
def DomNode.parentElement (el : DomNode) : Option DomNode :=
  match el.parentNode with
  | some parent => if parent.nodeType = 1 then some parent else none
  | none => none

/-- The polyfill `Element.prototype.closest` for a fixed selector `s`, with
`elMatches el` the value of `el.matches(s)`.  Each step of the `do ... while`
loop tests `el`, then moves to `el.parentElement || el.parentNode`, which is the
parent whether or not the parent is an element, and goes on while that node is
not `null` and has `nodeType === 1`. -/
def closest (elMatches : DomNode → Bool) : DomNode → Option DomNode
  | DomNode.root node kind =>
    if elMatches (DomNode.root node kind) then some (DomNode.root node kind) else none
  | DomNode.child node kind parent =>
    if elMatches (DomNode.child node kind parent) then some (DomNode.child node kind parent)
    else if parent.nodeType = 1 then closest elMatches parent
    else none

/-- The path `el`, parent, grandparent, ... up to the root. -/
def DomNode.path : DomNode → List DomNode
  | DomNode.root node kind => [DomNode.root node kind]
  | DomNode.child node kind parent => DomNode.child node kind parent :: parent.path

/-- Shape of a path in a DOM tree: a node that has a parent is an element
(documents and document fragments have none). -/
def DomNode.inDom : DomNode → Bool
  | DomNode.root _ _ => true
  | DomNode.child _ kind parent => kind == 1 && parent.inDom

/-- The loop `while (--i >= 0 && matches.item(i) !== this) \x7b \x7d` of the
fallback for `matches`, entered with the value `i`; the result is the value of
`i` when the loop ends. -/
def matchesLoop (found : List Nat) (this : Nat) : Nat → Int
  | 0 => -1
  | i + 1 => if found[i]? ≠ some this then matchesLoop found this i else (i : Int)

/-- The fallback function of the `matches` polyfill; `found` is the node list
`(this.document || this.ownerDocument).querySelectorAll(s)`. -/
def matchesFallback (found : List Nat) (this : Nat) : Bool :=
  decide (matchesLoop found this found.length > -1)

/-! ## The media-query mock of the responsive layout test -/

/-- The method `String.prototype.includes`. -/
def includes : List Char → List Char → Bool
  | [], needle => needle.isEmpty
  | c :: cs, needle => startsWith (c :: cs) needle || includes cs needle

/-- The fields of the mocked `MediaQueryList` that carry data. -/
structure MediaQueryList where
  «matches» : Bool
  media : List Char
  deriving DecidableEq, Repr

/-- The mock of `window.matchMedia` installed for the viewport width
`viewportWidth`. -/
def matchMedia (viewportWidth : Nat) (query : List Char) : MediaQueryList :=
  let result :=
    if includes query "min-width: 768px".toList then decide (viewportWidth ≥ 768)
    else if includes query "min-width: 1024px".toList then decide (viewportWidth ≥ 1024)
    else if includes query "min-width: 1280px".toList then decide (viewportWidth ≥ 1280)
    else false
  ⟨result, query⟩

/-! ## The extraction loop, call by call -/

/-- One call `re.exec(s)` of a global pattern whose `lastIndex` is `lastIndex`:
the first match that starts at `lastIndex` or later, `none` for `null`. -/
def exec (re : List Item) (s : List Char) (lastIndex : Nat) : Option RegexMatch :=
  firstMatch re (s.drop lastIndex) lastIndex

/-- The loop `while ((match = re.exec(s)) !== null) ...` run for at most `fuel`
calls of `exec`, starting with the given `lastIndex`; after a match `lastIndex`
is the end of the match.  The result is `none` when the fuel runs out before
`exec` returns `null`. -/
def execLoop (re : List Item) (s : List Char) : Nat → Nat → Option (List RegexMatch)
  | 0, _ => none
  | fuel + 1, lastIndex =>
    match exec re s lastIndex with
    | none => some []
    | some m => (execLoop re s fuel (m.index + m.text.length)).map fun ms => m :: ms

/-! ## Well-formed headings -/

/-- Whether `s` starts with non-empty text without `<` followed by a closing
heading tag `</hN>`. -/
def closedByHeading (s : List Char) : Bool :=
  match s.dropWhile fun c => c != '<' with
  | '<' :: '/' :: h :: d :: '>' :: _ =>
    !(s.takeWhile fun c => c != '<').isEmpty && (h == 'h' || h == 'H') && digit16 d
  | _ => false

/-- Whether each heading opening tag `<hN ...>` of the text is followed by
non-empty text without `<` and then a closing heading tag. -/
def wellFormedHeadings : List Char → Bool
  | [] => true
  | c :: cs =>
    (match matchItems openingRegex (c :: cs) with
      | some segs => closedByHeading ((c :: cs).drop segs.flatten.length)
      | none => true) && wellFormedHeadings cs

/-! ## The tags of a document

The tags that the tag-balance property of the spec counts, defined on the text
alone: an opening tag of an element is `<`, its name in any letter case, a
character that ends the name, and everything up to the next `>`; a closing tag
is `</name>`. -/

/-- Whether `s` starts with `p`, letters compared without regard to case. -/
def startsWithNoCase : List Char → List Char → Bool
  | _, [] => true
  | [], _ :: _ => false
  | c :: cs, p :: ps => c.toUpper == p.toUpper && startsWithNoCase cs ps

/-- Whether a character ends a tag name in markup: tab, line feed, form feed,
carriage return, space, `/` or `>`. -/
def endsTagName (c : Char) : Bool :=
  c.toNat == 9 || c.toNat == 10 || c.toNat == 12 || c.toNat == 13 || c.toNat == 32 ||
    c == '/' || c == '>'

/-- Length of the opening tag of the element `name` at the start of the text, if
there is one: `<`, the name, a character that ends the name, and the text up to
and including the next `>`. -/
def openingTagLength (name : List Char) (s : List Char) : Option Nat :=
  if startsWithNoCase s ('<' :: name) then
    match s.drop (name.length + 1) with
    | [] => none
    | c :: rest =>
      if endsTagName c && (c :: rest).contains '>' then
        some (name.length + 1 + ((c :: rest).takeWhile fun x => x != '>').length + 1)
      else none
  else none

/-- Number of opening tags of the element `name` in the text, read from left to
right; `skip` characters are still inside the tag found last. -/
def countOpeningTags (name : List Char) : List Char → Nat → Nat
  | [], _ => 0
  | _ :: cs, skip + 1 => countOpeningTags name cs skip
  | c :: cs, 0 =>
    match openingTagLength name (c :: cs) with
    | some n => 1 + countOpeningTags name cs (n - 1)
    | none => countOpeningTags name cs 0

/-- Number of closing tags `</name>` in the text, in any letter case, read from
left to right; `skip` characters are still inside the tag found last. -/
def countClosingTags (name : List Char) : List Char → Nat → Nat
  | [], _ => 0
  | _ :: cs, skip + 1 => countClosingTags name cs skip
  | c :: cs, 0 =>
    if startsWithNoCase (c :: cs) ('<' :: '/' :: name ++ ['>']) then
      1 + countClosingTags name cs (name.length + 2)
    else countClosingTags name cs 0

/-- Whether no tag of the text has a name that merely begins with `name`: every
`<name`, in any letter case, is followed by a character that ends the tag name
or by the end of the text. -/
def namesExact (name : List Char) : List Char → Bool
  | [] => true
  | c :: cs =>
    (if startsWithNoCase (c :: cs) ('<' :: name) then
      match (c :: cs).drop (name.length + 1) with
      | [] => true
      | x :: _ => endsTagName x
    else true) && namesExact name cs

/-! ## Clicks -/

/-- Dispatch of a click on the anchor `link`: each smooth-scroll listener the
anchor carries runs in turn and the outcomes add up; without listener the
default action is not prevented. -/
def click (p : Page) (link : Anchor) : ClickOutcome :=
  (p.clickListeners.filter fun n => n == link.node).foldl
    (fun out _ =>
      let r := smoothScrollClick p link
      ⟨out.defaultPrevented || r.defaultPrevented, out.frames ++ r.frames,
        out.thrown.orElse fun _ => r.thrown⟩)
    ⟨false, [], none⟩

/-! ## Lemmas on the checks -/

theorem checkJumps_error (l : List Nat) :
    ∀ (i0 prev0 j p c : Nat), (prev0 :: l)[j]? = some p → (prev0 :: l)[j + 1]? = some c →
      c > p → c - p > 1 → ∃ f, checkJumps i0 prev0 l = Except.error f := by
  induction l with
  | nil => intro i0 prev0 j p c _ hc; simp at hc
  | cons x xs ih =>
    intro i0 prev0 j p c hp hc hup hgap
    unfold checkJumps
    by_cases hx : x > prev0 ∧ ¬ (x - prev0 ≤ 1)
    · exact ⟨_, if_pos hx⟩
    · rw [if_neg hx]
      cases j with
      | zero =>
        simp at hp hc
        subst hp; subst hc
        exact absurd ⟨hup, by omega⟩ hx
      | succ j =>
        exact ih (i0 + 1) x j p c (by simpa using hp) (by simpa using hc) hup hgap

theorem checkLevels_error (ls : List Nat) (j p c : Nat) (hp : ls[j]? = some p)
    (hc : ls[j + 1]? = some c) (hup : c > p) (hgap : c - p > 1) :
    ∃ f, checkLevels ls = Except.error f := by
  cases ls with
  | nil => simp at hp
  | cons first rest =>
    simp only [checkLevels]
    by_cases h1 : first = 1
    · rw [if_pos h1]; exact checkJumps_error rest 1 first j p c hp hc hup hgap
    · exact ⟨_, if_neg h1⟩

theorem checkJumps_ok (l : List Nat) :
    ∀ (i0 prev0 : Nat),
      (∀ j p c, (prev0 :: l)[j]? = some p → (prev0 :: l)[j + 1]? = some c → c ≤ p + 1) →
      checkJumps i0 prev0 l = Except.ok () := by
  induction l with
  | nil => intro i0 prev0 _; rfl
  | cons x xs ih =>
    intro i0 prev0 h
    unfold checkJumps
    have hx : ¬ (x > prev0 ∧ ¬ (x - prev0 ≤ 1)) := by
      have := h 0 prev0 x (by simp) (by simp)
      omega
    rw [if_neg hx]
    exact ih (i0 + 1) x fun j p c hp hc => h (j + 1) p c (by simpa using hp) (by simpa using hc)

theorem fcAssert_error {α : Type} (prop : α → Except Failure Bool) (draws : List α) (x : α)
    (e : Failure) (hx : x ∈ draws) (he : prop x = Except.error e) :
    ∃ f, fcAssert prop draws = Except.error f := by
  induction draws with
  | nil => simp at hx
  | cons d ds ih =>
    unfold fcAssert
    cases hd : prop d with
    | error e2 => exact ⟨e2, rfl⟩
    | ok v =>
      cases v with
      | false => exact ⟨Failure.returnedFalse, rfl⟩
      | true =>
        simp only
        rcases List.mem_cons.mp hx with h | h
        · subst h; rw [he] at hd; cases hd
        · exact ih h

theorem fcAssert_ok {α : Type} (prop : α → Except Failure Bool) (draws : List α) (x : α)
    (hx : x ∈ draws) (hok : fcAssert prop draws = Except.ok ()) :
    ∃ v, prop x = Except.ok v := by
  cases hp : prop x with
  | ok v => exact ⟨v, rfl⟩
  | error e =>
    obtain ⟨f, hf⟩ := fcAssert_error prop draws x e hx hp
    rw [hf] at hok; cases hok

theorem property4_jump (hs : List Heading) (j : Nat) (hp hc : Heading)
    (h1 : hs[j]? = some hp) (h2 : hs[j + 1]? = some hc) (hup : hc.level > hp.level)
    (hgap : hc.level - hp.level > 1) :
    property4 hs (j + 1) = Except.error (Failure.jump (j + 1) hp.level hc.level) := by
  unfold property4
  simp only [h2, Nat.add_sub_cancel, h1, Nat.succ_ne_zero, if_false]
  rw [if_pos ⟨hup, by omega⟩]

/-! ## Claims -/

/-- C1 (heading step rule): if the levels extracted from a document contain an
adjacent pair `prev`, `cur` with `cur > prev` and `cur - prev > 1`, the ordering
test fails; the property of Property 4 throws at the index of `cur` for such a
pair of extracted headings, and so does the property test whenever that index
is drawn; the level sequence `[1, 3]` fails at the transition to index 1. -/
theorem heading_step_rule (htmlContent : List Char) (i prev cur : Nat)
    (hprev : (levels htmlContent)[i]? = some prev)
    (hcur : (levels htmlContent)[i + 1]? = some cur)
    (hup : cur > prev) (hgap : cur - prev > 1) :
    (∃ f, headingOrderTest htmlContent = Except.error f) ∧
    (∀ (j : Nat) (hp hc : Heading),
      (headings htmlContent)[j]? = some hp → (headings htmlContent)[j + 1]? = some hc →
      hc.level > hp.level → hc.level - hp.level > 1 →
      property4 (headings htmlContent) (j + 1)
          = Except.error (Failure.jump (j + 1) hp.level hc.level) ∧
        ∀ draws : List Nat, j + 1 ∈ draws →
          ∃ f, property4Test htmlContent draws = Except.error f) ∧
    checkLevels [1, 3] = Except.error (Failure.jump 1 1 3) := by
  refine ⟨checkLevels_error _ i prev cur hprev hcur hup hgap, ?_, by decide⟩
  intro j hp hc h1 h2 hup2 hgap2
  have hj := property4_jump (headings htmlContent) j hp hc h1 h2 hup2 hgap2
  exact ⟨hj, fun draws hd => fcAssert_error _ draws (j + 1) _ hd hj⟩

/-- Witness of C1: the document `<h1>A</h1><h3>B</h3>`. -/
theorem heading_step_rule_witness :
    (∃ f, headingOrderTest "<h1>A</h1><h3>B</h3>".toList = Except.error f) ∧
    headingOrderTest "<h1>A</h1><h3>B</h3>".toList = Except.error (Failure.jump 1 1 3) ∧
    property4Test "<h1>A</h1><h3>B</h3>".toList [0, 1] = Except.error (Failure.jump 1 1 3) :=
  ⟨(heading_step_rule "<h1>A</h1><h3>B</h3>".toList 0 1 3 (by decide) (by decide)
      (by decide) (by decide)).1, by decide, by decide⟩

/-- C2 (first heading rule): when the ordering test passes on a document with at
least one extracted level, the first level is 1; a first level other than 1
fails the assertion on the first heading.  The same holds for the property of
Property 4 at index 0 and for the property test whenever index 0 is drawn. -/
theorem first_heading_rule (htmlContent : List Char) (first : Nat) (rest : List Nat)
    (hlevels : levels htmlContent = first :: rest) :
    (headingOrderTest htmlContent = Except.ok () → first = 1) ∧
    (first ≠ 1 → headingOrderTest htmlContent = Except.error (Failure.firstNotH1 first)) ∧
    (∀ (h : Heading) (hs : List Heading), headings htmlContent = h :: hs →
      (property4 (headings htmlContent) 0 = Except.ok true → h.level = 1) ∧
      (h.level ≠ 1 →
        property4 (headings htmlContent) 0 = Except.error (Failure.firstNotH1 h.level)) ∧
      ∀ draws : List Nat, 0 ∈ draws →
        property4Test htmlContent draws = Except.ok () → h.level = 1) := by
  have hneg : first ≠ 1 →
      headingOrderTest htmlContent = Except.error (Failure.firstNotH1 first) := by
    intro h1
    simp only [headingOrderTest, hlevels, checkLevels]
    exact if_neg h1
  refine ⟨?_, hneg, ?_⟩
  · intro hok
    by_contra h1
    rw [hneg h1] at hok
    cases hok
  · intro h hs hh
    have hneg4 : h.level ≠ 1 →
        property4 (headings htmlContent) 0 = Except.error (Failure.firstNotH1 h.level) := by
      intro h1
      simp [property4, hh, h1]
    have hpos4 : property4 (headings htmlContent) 0 = Except.ok true → h.level = 1 := by
      intro hok
      by_contra h1
      rw [hneg4 h1] at hok
      cases hok
    refine ⟨hpos4, hneg4, ?_⟩
    intro draws hd hok
    obtain ⟨v, hv⟩ := fcAssert_ok _ draws 0 hd hok
    by_contra h1
    rw [hneg4 h1] at hv
    cases hv

/-- Witness of C2: a document whose first heading is `h2`. -/
theorem first_heading_rule_witness :
    levels "<h2>A</h2><h3>B</h3>".toList = [2, 3] ∧
    headingOrderTest "<h2>A</h2><h3>B</h3>".toList = Except.error (Failure.firstNotH1 2) ∧
    property4 (headings "<h2>A</h2><h3>B</h3>".toList) 0
      = Except.error (Failure.firstNotH1 2) :=
  ⟨by decide,
   (first_heading_rule "<h2>A</h2><h3>B</h3>".toList 2 [3] (by decide)).2.1 (by decide),
   ((first_heading_rule "<h2>A</h2><h3>B</h3>".toList 2 [3] (by decide)).2.2
      ⟨2, ['A'], 0⟩ [⟨3, ['B'], 10⟩] (by decide)).2.1 (by decide)⟩

/-- C3 (heading text rule), evaluation at the failing input: a document with an
empty `h2` passes the heading text test for all six levels, and passes
Property 4 for the only index there is. -/
theorem heading_text_empty_heading_passes :
    headingTextTest "<h1>Title</h1><h2></h2>".toList [1, 2, 3, 4, 5, 6] = Except.ok () ∧
    headings "<h1>Title</h1><h2></h2>".toList = [⟨1, "Title".toList, 0⟩] ∧
    property4Test "<h1>Title</h1><h2></h2>".toList [0] = Except.ok () ∧
    headingTextTest "<h1>Title</h1><h2> </h2>".toList [1, 2, 3, 4, 5, 6]
      = Except.error Failure.emptyText := by
  decide

/-- C4 (heading extraction is complete), evaluation at the failing input: of
three heading elements the extraction loop records one, while the pattern of
the ordering test finds the three opening tags. -/
theorem heading_extraction_skips_headings :
    headings "<h1>Title</h1><h2><em>Sub</em></h2><h3></h3>".toList
      = [⟨1, "Title".toList, 0⟩] ∧
    levels "<h1>Title</h1><h2><em>Sub</em></h2><h3></h3>".toList = [1, 2, 3] := by
  decide

theorem semanticTagProperty_ok (toLowerCase : List Char → List Char) (htmlContent : List Char)
    (t : String) (v : Bool)
    (hok : semanticTagProperty toLowerCase htmlContent t = Except.ok v) :
    (openTags htmlContent t).length = 0 ∨
      (openTags htmlContent t).length = (closeTags htmlContent t).length := by
  by_cases h0 : (openTags htmlContent t).length > 0
  · by_cases heq : (openTags htmlContent t).length = (closeTags htmlContent t).length
    · exact Or.inr heq
    · simp only [semanticTagProperty, if_pos h0, if_neg heq] at hok
      cases hok
  · exact Or.inl (by omega)

/-- C6 (decreases are unrestricted): a level sequence that starts with 1 and in
which no level exceeds the one before it by more than one passes the two checks
of the ordering test, whatever the decreases; so does every document whose
extracted levels form such a sequence, and `[1, 2, 3, 4, 1]` passes. -/
theorem decreases_unrestricted (ls : List Nat) (hfirst : ls.head? = some 1)
    (hstep : ∀ i prev cur, ls[i]? = some prev → ls[i + 1]? = some cur → cur ≤ prev + 1) :
    checkLevels ls = Except.ok () ∧
    (∀ htmlContent, levels htmlContent = ls → headingOrderTest htmlContent = Except.ok ()) ∧
    checkLevels [1, 2, 3, 4, 1] = Except.ok () := by
  have h : checkLevels ls = Except.ok () := by
    cases ls with
    | nil => simp at hfirst
    | cons first rest =>
      simp only [List.head?_cons, Option.some.injEq] at hfirst
      simp only [checkLevels, if_pos hfirst]
      exact checkJumps_ok rest 1 first hstep
  refine ⟨h, ?_, by decide⟩
  intro htmlContent hl
  simp only [headingOrderTest, hl, h]

/-- Witness of C6: the levels 1, 2, 3, 4, 1 with a drop of three. -/
theorem decreases_unrestricted_witness :
    checkLevels [1, 2, 3, 4, 1] = Except.ok () ∧
    headingOrderTest "<h1>a</h1><h2>b</h2><h3>c</h3><h4>d</h4><h1>e</h1>".toList
      = Except.ok () :=
  ⟨(decreases_unrestricted [1, 2, 3, 4, 1] (by decide) (by
      intro i prev cur h1 h2
      match i, h1, h2 with
      | 0, h1, h2 => simp at h1 h2; omega
      | 1, h1, h2 => simp at h1 h2; omega
      | 2, h1, h2 => simp at h1 h2; omega
      | 3, h1, h2 => simp at h1 h2; omega
      | n + 4, h1, h2 => simp at h2)).1,
   (decreases_unrestricted [1, 2, 3, 4, 1] (by decide) (by
      intro i prev cur h1 h2
      match i, h1, h2 with
      | 0, h1, h2 => simp at h1 h2; omega
      | 1, h1, h2 => simp at h1 h2; omega
      | 2, h1, h2 => simp at h1 h2; omega
      | 3, h1, h2 => simp at h1 h2; omega
      | n + 4, h1, h2 => simp at h2)).2.1
     "<h1>a</h1><h2>b</h2><h3>c</h3><h4>d</h4><h1>e</h1>".toList (by decide)⟩

theorem forEachFrom_ok {α : Type} (f : Nat → α → Except Failure Unit) (xs : List α) :
    ∀ i0, forEachFrom f i0 xs = Except.ok () →
      ∀ x ∈ xs, ∃ i, f i x = Except.ok () := by
  induction xs with
  | nil => intro i0 _ x hx; simp at hx
  | cons y ys ih =>
    intro i0 hok x hx
    unfold forEachFrom at hok
    cases hy : f i0 y with
    | error e => rw [hy] at hok; cases hok
    | ok u =>
      rw [hy] at hok
      rcases List.mem_cons.mp hx with h | h
      · subst h; exact ⟨i0, hy⟩
      · exact ih (i0 + 1) hok x h

theorem exists_not_whiteSpace_of_trim (s : List Char) (h : (trim s).length > 0) :
    ∃ c ∈ s, isWhiteSpace c = false := by
  unfold trim at h
  rw [List.length_reverse] at h
  have hne : (s.dropWhile isWhiteSpace).reverse.dropWhile isWhiteSpace ≠ [] := by
    intro h0; rw [h0] at h; simp at h
  have hne2 : (s.dropWhile isWhiteSpace) ≠ [] := by
    intro h0; rw [h0] at hne; simp at hne
  have hhead := List.head_dropWhile_not isWhiteSpace s hne2
  refine ⟨(s.dropWhile isWhiteSpace).head hne2, ?_, by simpa using hhead⟩
  exact (List.dropWhile_sublist isWhiteSpace).subset (List.head_mem hne2)

theorem checkNavLink_ok (i : Nat) (link : NavLink) (h : checkNavLink i link = Except.ok ()) :
    (∃ label, link.ariaLabel = some label ∧ label ≠ []) ∧
    (∃ rest, link.href = some ('#' :: rest)) ∧
    (∃ c ∈ link.textContent, isWhiteSpace c = false) := by
  unfold checkNavLink at h
  split at h
  next ha =>
    split at h
    next hh =>
      split at h
      next hs =>
        split at h
        next ht =>
          refine ⟨?_, ?_, exists_not_whiteSpace_of_trim _ ht⟩
          · cases hl : link.ariaLabel with
            | none => rw [hl] at ha; simp [truthy] at ha
            | some l =>
              cases l with
              | nil => rw [hl] at ha; simp [truthy] at ha
              | cons c cs => exact ⟨c :: cs, rfl, by simp⟩
          · unfold startsWithHash at hs
            split at hs
            next rest heq => exact ⟨rest, heq⟩
            next => cases hs
        next => cases h
      next => cases h
    next => cases h
  next => cases h

/-- C7 (navigation link accessibility): when the accessibility test passes,
every navigation link has a non-empty `aria-label`, a non-empty `href` that
starts with `#`, and link text with a character that is not white space; a list
with a link whose `aria-label` or `href` is missing or empty fails the test. -/
theorem nav_link_accessibility (navLinks : List NavLink) :
    (navAccessibilityTest navLinks = Except.ok () →
      ∀ link ∈ navLinks,
        (∃ label, link.ariaLabel = some label ∧ label ≠ []) ∧
        (∃ rest, link.href = some ('#' :: rest)) ∧
        (∃ c ∈ link.textContent, isWhiteSpace c = false)) ∧
    (∀ link ∈ navLinks,
      (link.ariaLabel = none ∨ link.ariaLabel = some [] ∨
        link.href = none ∨ link.href = some []) →
      ∃ f, navAccessibilityTest navLinks = Except.error f) := by
  have hpass : navAccessibilityTest navLinks = Except.ok () →
      ∀ link ∈ navLinks,
        (∃ label, link.ariaLabel = some label ∧ label ≠ []) ∧
        (∃ rest, link.href = some ('#' :: rest)) ∧
        (∃ c ∈ link.textContent, isWhiteSpace c = false) := by
    intro hok link hl
    obtain ⟨i, hi⟩ := forEachFrom_ok checkNavLink navLinks 0 hok link hl
    exact checkNavLink_ok i link hi
  refine ⟨hpass, ?_⟩
  intro link hl hmiss
  cases hres : navAccessibilityTest navLinks with
  | error f => exact ⟨f, rfl⟩
  | ok u =>
    obtain ⟨⟨label, hlab, hne⟩, ⟨rest, hhref⟩, _⟩ := hpass hres link hl
    rcases hmiss with h | h | h | h
    · rw [h] at hlab; cases hlab
    · rw [h] at hlab; cases hlab; exact absurd rfl hne
    · rw [h] at hhref; cases hhref
    · rw [h] at hhref; cases hhref

/-- Witness of C7: one complete link passes; with a second link that has no
`href` the test fails at that link. -/
theorem nav_link_accessibility_witness :
    navAccessibilityTest [⟨some "Home".toList, some "#home".toList, " Home ".toList⟩]
      = Except.ok () ∧
    (∃ rest, (some "#home".toList : Option (List Char)) = some ('#' :: rest)) ∧
    navAccessibilityTest
        [⟨some "Home".toList, some "#home".toList, " Home ".toList⟩,
         ⟨some "About".toList, none, "About".toList⟩]
      = Except.error (Failure.navLink 1 "href") :=
  ⟨by decide,
   ((nav_link_accessibility
      [⟨some "Home".toList, some "#home".toList, " Home ".toList⟩]).1 (by decide)
      ⟨some "Home".toList, some "#home".toList, " Home ".toList⟩ (by simp)).2.1,
   by decide⟩

/-- C8 (capability absence never throws), evaluation at the failing input: in a
browser without the global `CSS` the script throws a ReferenceError in
`detectBrowserSupport`, whatever the other capabilities are; with `CSS` but
without `CSS.supports` it throws a TypeError; with `CSS.supports` present the
script runs to completion whichever other capabilities are absent. -/
theorem load_throws_without_css_supports (b : Browser) (p : Page) :
    loadScript { b with css := CssApi.absent } p
      = Except.error (JsError.referenceError "CSS") ∧
    loadScript { b with css := CssApi.withoutSupports } p
      = Except.error (JsError.typeError "CSS.supports is not a function") ∧
    ∀ f, ∃ q, loadScript { b with css := CssApi.supports f } p = Except.ok q := by
  refine ⟨rfl, rfl, fun f => ⟨_, rfl⟩⟩

theorem getElementById_some (p : Page) (elementId : List Char) (e : Element)
    (h : getElementById p elementId = some e) :
    e ∈ p.elements ∧ e.id ≠ [] ∧ e.id = elementId := by
  unfold getElementById at h
  have hm := List.mem_of_find?_eq_some h
  have hp := List.find?_some h
  simp only [Bool.and_eq_true, bne_iff_ne, ne_eq, beq_iff_eq] at hp
  exact ⟨hm, hp.1, hp.2⟩

theorem getElementById_none (p : Page) (elementId : List Char)
    (h : getElementById p elementId = none) :
    ∀ e ∈ p.elements, ¬ (e.id ≠ [] ∧ e.id = elementId) := by
  unfold getElementById at h
  intro e he hc
  have := List.find?_eq_none.mp h e he
  simp only [Bool.and_eq_true, bne_iff_ne, ne_eq, beq_iff_eq] at this
  exact this hc

theorem smoothScrollClick_spec (p : Page) (node : Nat) (rest : List Char) :
    (smoothScrollClick p ⟨node, some ('#' :: rest)⟩).defaultPrevented = true ∧
    (smoothScrollClick p ⟨node, some ('#' :: rest)⟩).thrown = none ∧
    ((smoothScrollClick p ⟨node, some ('#' :: rest)⟩).frames ≠ [] ↔
      ∃ e ∈ p.elements, e.id ≠ [] ∧ e.id = rest) ∧
    ((∃ e ∈ p.elements, e.id ≠ [] ∧ e.id = rest) →
      ∃ e ∈ p.elements, e.id = rest ∧
        (smoothScrollClick p ⟨node, some ('#' :: rest)⟩).frames
          = [⟨e.node, "smooth", "start"⟩]) ∧
    (∀ e ∈ p.elements, e.id ≠ [] → e.id = rest →
      (∀ e2 ∈ p.elements, e2.id = rest → e2 = e) →
      (smoothScrollClick p ⟨node, some ('#' :: rest)⟩).frames
        = [⟨e.node, "smooth", "start"⟩]) ∧
    ((∀ e ∈ p.elements, e.id ≠ rest) →
      (smoothScrollClick p ⟨node, some ('#' :: rest)⟩).frames = []) ∧
    (smoothScrollClick p ⟨node, some ['#']⟩).frames = [] := by
  have hsome : ∀ r, (∃ e ∈ p.elements, e.id ≠ [] ∧ e.id = r) →
      ∃ e ∈ p.elements, e.id = r ∧
        (smoothScrollClick p ⟨node, some ('#' :: r)⟩).frames
          = [⟨e.node, "smooth", "start"⟩] := by
    intro r ⟨e, he, hid⟩
    cases hg : getElementById p r with
    | none => exact absurd hid (getElementById_none p r hg e he)
    | some t =>
      obtain ⟨ht, _, htid⟩ := getElementById_some p r t hg
      refine ⟨t, ht, htid, ?_⟩
      simp [smoothScrollClick, hg]
  have hnone : ∀ r, (¬ ∃ e ∈ p.elements, e.id ≠ [] ∧ e.id = r) →
      (smoothScrollClick p ⟨node, some ('#' :: r)⟩).frames = [] := by
    intro r hno
    cases hg : getElementById p r with
    | none => simp [smoothScrollClick, hg]
    | some t =>
      obtain ⟨ht, hne, htid⟩ := getElementById_some p r t hg
      exact absurd ⟨t, ht, hne, htid⟩ hno
  refine ⟨?_, ?_, ?_, hsome rest, ?_, ?_, ?_⟩
  · simp only [smoothScrollClick]
    cases getElementById p (List.drop 1 ('#' :: rest)) <;> rfl
  · simp only [smoothScrollClick]
    cases getElementById p (List.drop 1 ('#' :: rest)) <;> rfl
  · constructor
    · intro hne
      by_contra hno
      exact hne (hnone rest hno)
    · intro hex
      obtain ⟨e, _, _, hf⟩ := hsome rest hex
      rw [hf]; simp
  · intro e he hne hid huniq
    obtain ⟨t, ht, htid, hf⟩ := hsome rest ⟨e, he, hne, hid⟩
    rw [hf, huniq t ht htid]
  · intro hno
    exact hnone rest fun ⟨e, he, _, hid⟩ => hno e he hid
  · exact hnone [] fun ⟨e, _, hne, hid⟩ => hne hid

theorem imageObserverCallback_frame (entries : List Entry) :
    ∀ p : Page, imageObserverCallback entries p
      = { p with observed := (imageObserverCallback entries p).observed } := by
  induction entries with
  | nil => intro p; rfl
  | cons e es ih =>
    intro p
    simp only [imageObserverCallback, List.foldl_cons] at ih ⊢
    by_cases hi : e.isIntersecting = true
    · simp only [hi, if_true]
      exact ih { p with observed := unobserve p.observed e.target }
    · simp only [hi]
      exact ih p

theorem mem_imageObserverCallback (entries : List Entry) :
    ∀ (p : Page) (img : Nat), img ∈ (imageObserverCallback entries p).observed ↔
      img ∈ p.observed ∧ ∀ e ∈ entries, e.isIntersecting = true → e.target ≠ img := by
  induction entries with
  | nil => intro p img; simp [imageObserverCallback]
  | cons e es ih =>
    intro p img
    simp only [imageObserverCallback, List.foldl_cons] at ih ⊢
    by_cases hi : e.isIntersecting = true
    · simp only [hi, if_true]
      rw [ih]
      simp only [unobserve, List.mem_filter, bne_iff_ne, ne_eq, List.mem_cons, forall_eq_or_imp,
        hi, true_implies]
      constructor
      · rintro ⟨⟨h1, h2⟩, h3⟩; exact ⟨h1, fun h => h2 h.symm, h3⟩
      · rintro ⟨h1, h2, h3⟩; exact ⟨⟨h1, fun h => h2 h.symm⟩, h3⟩
    · simp only [hi]
      rw [ih]
      simp [hi]

/-- C10 (lazy-image one-shot observation): after the watcher callback has run on
a batch of entries, no target of an intersecting entry is observed, an image
that is the target of no intersecting entry is observed exactly if it was
before, and nothing else of the page has changed. -/
theorem lazy_image_one_shot (entries : List Entry) (p : Page) :
    (∀ e ∈ entries, e.isIntersecting = true →
      e.target ∉ (imageObserverCallback entries p).observed) ∧
    (∀ img : Nat, (∀ e ∈ entries, e.isIntersecting = true → e.target ≠ img) →
      (img ∈ (imageObserverCallback entries p).observed ↔ img ∈ p.observed)) ∧
    imageObserverCallback entries p
      = { p with observed := (imageObserverCallback entries p).observed } := by
  refine ⟨?_, ?_, imageObserverCallback_frame entries p⟩
  · intro e he hi hmem
    exact ((mem_imageObserverCallback entries p e.target).mp hmem).2 e he hi rfl
  · intro img hno
    rw [mem_imageObserverCallback]
    exact ⟨fun h => h.1, fun h => ⟨h, hno⟩⟩

/-- Witness of C10: images 1, 2, 3 observed; image 2 intersects, image 3 does
not. -/
theorem lazy_image_one_shot_witness :
    (imageObserverCallback [⟨true, 2⟩, ⟨false, 3⟩]
        ⟨[], [], [], [], [], [], [], [], [], false, [1, 2, 3], [], false, false⟩).observed
      = [1, 3] ∧
    2 ∉ (imageObserverCallback [⟨true, 2⟩, ⟨false, 3⟩]
        ⟨[], [], [], [], [], [], [], [], [], false, [1, 2, 3], [], false, false⟩).observed :=
  ⟨by decide,
   (lazy_image_one_shot [⟨true, 2⟩, ⟨false, 3⟩]
      ⟨[], [], [], [], [], [], [], [], [], false, [1, 2, 3], [], false, false⟩).1
      ⟨true, 2⟩ (by simp) rfl⟩

/-! ## Lemmas on strings -/

theorem startsWith_iff (s p : List Char) : startsWith s p = true ↔ p <+: s := by
  induction s generalizing p with
  | nil =>
    cases p with
    | nil => simp [startsWith]
    | cons a as => simp [startsWith]
  | cons c cs ih =>
    cases p with
    | nil => simp [startsWith]
    | cons a as =>
      simp only [startsWith, Bool.and_eq_true, beq_iff_eq, ih, List.cons_prefix_cons]
      constructor
      · rintro ⟨h1, h2⟩; exact ⟨h1.symm, h2⟩
      · rintro ⟨h1, h2⟩; exact ⟨h1.symm, h2⟩

theorem indexOfFrom_ne_iff (needle s : List Char) :
    ∀ pos : Nat, (indexOfFrom needle s pos ≠ -1 ↔ needle <:+: s) := by
  induction s with
  | nil =>
    intro pos
    unfold indexOfFrom
    by_cases h : needle = []
    · simp [h]
    · simp [h]
  | cons c cs ih =>
    intro pos
    unfold indexOfFrom
    by_cases h : startsWith (c :: cs) needle = true
    · rw [if_pos h]
      have hp := (startsWith_iff _ _).mp h
      constructor
      · intro _; exact hp.isInfix
      · intro _; omega
    · rw [if_neg h, ih (pos + 1), List.infix_cons_iff]
      constructor
      · intro h2; exact Or.inr h2
      · rintro (h2 | h2)
        · exact absurd ((startsWith_iff _ _).mpr h2) h
        · exact h2

theorem indexOf_ne_iff (s needle : List Char) : indexOf s needle ≠ -1 ↔ needle <:+: s :=
  indexOfFrom_ne_iff needle s 0

theorem indexOf_eq_iff (s needle : List Char) : indexOf s needle = -1 ↔ ¬ needle <:+: s := by
  rw [← indexOf_ne_iff]; exact not_not.symm

theorem includes_iff (s needle : List Char) : includes s needle = true ↔ needle <:+: s := by
  induction s with
  | nil => cases needle <;> simp [includes]
  | cons c cs ih =>
    simp only [includes, Bool.or_eq_true, ih, startsWith_iff, List.infix_cons_iff]

theorem mem_classListAdd (classes : List String) (c x : String) :
    x ∈ classListAdd classes c ↔ x ∈ classes ∨ x = c := by
  unfold classListAdd
  by_cases h : c ∈ classes
  · rw [if_pos h]
    constructor
    · exact Or.inl
    · rintro (h1 | h1)
      · exact h1
      · rw [h1]; exact h
  · rw [if_neg h]; simp

/-- C11 (prefetch injector): one call of `preloadResources` keeps the children
of `document.head` that were there and appends four `link` elements with `rel`
`prefetch` and the four icon paths as `href`, in the order of the list; nothing
else of the page changes. -/
theorem prefetch_injector (p : Page) :
    (preloadResources p).head
      = p.head ++
        [HeadChild.link "prefetch" "assets/images/web-design-icon.svg",
         HeadChild.link "prefetch" "assets/images/responsive-icon.svg",
         HeadChild.link "prefetch" "assets/images/accessibility-icon.svg",
         HeadChild.link "prefetch" "assets/images/performance-icon.svg"] ∧
    preloadResources p = { p with head := (preloadResources p).head } := by
  constructor
  · simp [preloadResources, criticalImages]
  · rfl

theorem tagBrowser_imgs (b : Browser) (p : Page) : (tagBrowser b p).imgs = p.imgs := by
  unfold tagBrowser
  split_ifs <;> rfl

theorem mainFunction_imgs (b : Browser) (p : Page) : (mainFunction b p).imgs = p.imgs := by
  unfold mainFunction setupPerformanceObserver Page.log
  split_ifs <;> rfl

theorem loadScript_ok (b : Browser) (p q : Page) (hload : loadScript b p = Except.ok q) :
    ∃ f, b.css = CssApi.supports f ∧
      q = tagBrowser b
        (lazyFallback
          { flexbox := f "display" "flex"
            grid := f "display" "grid"
            customProperties := f "color" "var(--test)"
            intersectionObserver := b.intersectionObserver
            performanceObserver := b.performanceObserver }
          ((installPolyfills b (mainFunction b p)).log "浏览器支持情况:")) := by
  unfold loadScript at hload
  cases hcss : b.css with
  | absent => simp [detectBrowserSupport, hcss] at hload
  | withoutSupports => simp [detectBrowserSupport, hcss] at hload
  | supports f =>
    simp only [detectBrowserSupport, hcss, Except.ok.injEq] at hload
    exact ⟨f, rfl, hload.symm⟩

theorem loadScript_imgs (b : Browser) (p q : Page) (hload : loadScript b p = Except.ok q) :
    q.imgs = if b.intersectionObserver = true then p.imgs
      else p.imgs.map fun img =>
        if img.loading == some "lazy".toList then { img with loading := none } else img := by
  obtain ⟨f, _, hq⟩ := loadScript_ok b p q hload
  rw [hq, tagBrowser_imgs]
  unfold lazyFallback
  cases hio : b.intersectionObserver
  · simp only [Bool.not_false, if_true, Bool.false_eq_true, if_false]
    show List.map _ (mainFunction b p).imgs = _
    rw [mainFunction_imgs]
  · simp only [Bool.not_true, Bool.false_eq_true, if_false, if_true]
    show (mainFunction b p).imgs = _
    rw [mainFunction_imgs]

/-- C12 (IntersectionObserver fallback): after the script has loaded, if
`IntersectionObserver` is not supported every `img` that had `loading="lazy"`
has no `loading` attribute and every other `img` is as before; if it is
supported the `img` elements are as before.  The list of images keeps its length
and order. -/
theorem intersection_observer_fallback (b : Browser) (p q : Page)
    (hload : loadScript b p = Except.ok q) :
    (b.intersectionObserver = false →
      q.imgs.length = p.imgs.length ∧
      ∀ (i : Nat) (img : Img), p.imgs[i]? = some img →
        (img.loading = some "lazy".toList → q.imgs[i]? = some { img with loading := none }) ∧
        (img.loading ≠ some "lazy".toList → q.imgs[i]? = some img)) ∧
    (b.intersectionObserver = true → q.imgs = p.imgs) := by
  have h := loadScript_imgs b p q hload
  constructor
  · intro hio
    rw [hio] at h
    simp only [Bool.false_eq_true, if_false] at h
    rw [h]
    refine ⟨by simp, ?_⟩
    intro i img hi
    simp only [List.getElem?_map, hi, Option.map_some']
    constructor
    · intro hl
      rw [if_pos (by rw [hl]; exact beq_self_eq_true _)]
    · intro hl
      rw [if_neg (fun h => hl (beq_iff_eq.mp h))]
  · intro hio
    rw [hio] at h
    simpa using h

/-- Witness of C12: a browser with `CSS.supports` and without
`IntersectionObserver`, a page with a lazy and an eager image. -/
theorem intersection_observer_fallback_witness :
    loadScript ⟨false, false, false, CssApi.supports fun _ _ => true, false, false, true, true,
        "Mozilla".toList⟩
      ⟨[⟨1, some "lazy".toList⟩, ⟨2, some "eager".toList⟩], [], [], [], [], [], [], [], [],
        false, [], [], false, false⟩
      = Except.ok
        ⟨[⟨1, none⟩, ⟨2, some "eager".toList⟩], [], [], [], [], [], ["浏览器支持情况:"],
          ["DOMContentLoaded"], [], false, [], [], false, false⟩ ∧
    (⟨[⟨1, none⟩, ⟨2, some "eager".toList⟩], [], [], [], [], [], ["浏览器支持情况:"],
          ["DOMContentLoaded"], [], false, [], [], false, false⟩ : Page).imgs[0]?
      = some ⟨1, none⟩ :=
  ⟨by rfl,
   (((intersection_observer_fallback
      ⟨false, false, false, CssApi.supports fun _ _ => true, false, false, true, true,
        "Mozilla".toList⟩
      ⟨[⟨1, some "lazy".toList⟩, ⟨2, some "eager".toList⟩], [], [], [], [], [], [], [], [],
        false, [], [], false, false⟩
      ⟨[⟨1, none⟩, ⟨2, some "eager".toList⟩], [], [], [], [], [], ["浏览器支持情况:"],
        ["DOMContentLoaded"], [], false, [], [], false, false⟩ (by rfl)).1 rfl).2
      0 ⟨1, some "lazy".toList⟩ rfl).1 rfl⟩

theorem mem_tagBrowser_bodyClasses (b : Browser) (p : Page) (x : String) :
    x ∈ (tagBrowser b p).bodyClasses ↔
      x ∈ p.bodyClasses ∨
      (x = "ie11" ∧ "Trident".toList <:+: b.userAgent) ∨
      (x = "safari" ∧ "Safari".toList <:+: b.userAgent ∧ ¬ "Chrome".toList <:+: b.userAgent) ∨
      (x = "firefox" ∧ "Firefox".toList <:+: b.userAgent) := by
  unfold tagBrowser
  simp only [indexOf_ne_iff, indexOf_eq_iff]
  split_ifs with h1 h2 h3 h3 h2 h3 h3
  all_goals (try simp only [mem_classListAdd])
  all_goals tauto

theorem lazyFallback_bodyClasses (s : Support) (p : Page) :
    (lazyFallback s p).bodyClasses = p.bodyClasses := by
  unfold lazyFallback
  split_ifs <;> rfl

theorem mainFunction_bodyClasses (b : Browser) (p : Page) :
    (mainFunction b p).bodyClasses = p.bodyClasses := by
  unfold mainFunction setupPerformanceObserver Page.log
  split_ifs <;> rfl

theorem mem_loadScript_bodyClasses (b : Browser) (p q : Page)
    (hload : loadScript b p = Except.ok q) (x : String) :
    x ∈ q.bodyClasses ↔
      x ∈ p.bodyClasses ∨
      (x = "ie11" ∧ "Trident".toList <:+: b.userAgent) ∨
      (x = "safari" ∧ "Safari".toList <:+: b.userAgent ∧ ¬ "Chrome".toList <:+: b.userAgent) ∨
      (x = "firefox" ∧ "Firefox".toList <:+: b.userAgent) := by
  obtain ⟨f, _, hq⟩ := loadScript_ok b p q hload
  rw [hq, mem_tagBrowser_bodyClasses, lazyFallback_bodyClasses]
  show _ ∈ (mainFunction b p).bodyClasses ∨ _ ↔ _
  rw [mainFunction_bodyClasses]

/-- C18 (media-query mock), counterexample to the claim as stated: a query that
contains `min-width: 1024px` and also `min-width: 768px` matches at width 800,
although 800 is below 1024. -/
theorem media_query_mock_counterexample :
    includes "(min-width: 768px) and (min-width: 1024px)".toList "min-width: 1024px".toList
      = true ∧
    (matchMedia 800 "(min-width: 768px) and (min-width: 1024px)".toList).«matches» = true ∧
    decide (800 ≥ 1024) = false := by
  decide

/-- C18 (media-query mock, amended): the mock reports `w ≥ 768` for a query that
contains `min-width: 768px`; `w ≥ 1024` for one that contains
`min-width: 1024px` and not `min-width: 768px`; `w ≥ 1280` for one that contains
`min-width: 1280px` and neither of the other two; `false` for any other query.
For each query the result is monotone in `w`, and `media` is the query. -/
theorem media_query_mock (w : Nat) (query : List Char) :
    ("min-width: 768px".toList <:+: query →
      (matchMedia w query).«matches» = decide (w ≥ 768)) ∧
    (¬ "min-width: 768px".toList <:+: query → "min-width: 1024px".toList <:+: query →
      (matchMedia w query).«matches» = decide (w ≥ 1024)) ∧
    (¬ "min-width: 768px".toList <:+: query → ¬ "min-width: 1024px".toList <:+: query →
      "min-width: 1280px".toList <:+: query →
      (matchMedia w query).«matches» = decide (w ≥ 1280)) ∧
    (¬ "min-width: 768px".toList <:+: query → ¬ "min-width: 1024px".toList <:+: query →
      ¬ "min-width: 1280px".toList <:+: query →
      (matchMedia w query).«matches» = false) ∧
    (∀ w2 : Nat, w ≤ w2 → (matchMedia w query).«matches» = true →
      (matchMedia w2 query).«matches» = true) ∧
    (matchMedia w query).media = query := by
  have e1 := includes_iff query "min-width: 768px".toList
  have e2 := includes_iff query "min-width: 1024px".toList
  have e3 := includes_iff query "min-width: 1280px".toList
  refine ⟨?_, ?_, ?_, ?_, ?_, rfl⟩
  · intro h1
    simp only [matchMedia, e1.mpr h1, if_true]
  · intro h1 h2
    have n1 : ¬ includes query "min-width: 768px".toList = true := fun h => h1 (e1.mp h)
    simp only [matchMedia, n1, e2.mpr h2, Bool.false_eq_true, if_false, if_true]
  · intro h1 h2 h3
    have n1 : ¬ includes query "min-width: 768px".toList = true := fun h => h1 (e1.mp h)
    have n2 : ¬ includes query "min-width: 1024px".toList = true := fun h => h2 (e2.mp h)
    simp only [matchMedia, n1, n2, e3.mpr h3, Bool.false_eq_true, if_false, if_true]
  · intro h1 h2 h3
    have n1 : ¬ includes query "min-width: 768px".toList = true := fun h => h1 (e1.mp h)
    have n2 : ¬ includes query "min-width: 1024px".toList = true := fun h => h2 (e2.mp h)
    have n3 : ¬ includes query "min-width: 1280px".toList = true := fun h => h3 (e3.mp h)
    simp only [matchMedia, n1, n2, n3, Bool.false_eq_true, if_false]
  · intro w2 hw
    simp only [matchMedia]
    split_ifs <;> simp <;> omega

/-- Witness of C18: the query `(min-width: 1024px)` at the widths 1023 and
1024. -/
theorem media_query_mock_witness :
    (matchMedia 1023 "(min-width: 1024px)".toList).«matches» = decide (1023 ≥ 1024) ∧
    (matchMedia 1024 "(min-width: 1024px)".toList).«matches» = true ∧
    (matchMedia 1920 "(min-width: 1024px)".toList).«matches» = true :=
  ⟨(media_query_mock 1023 "(min-width: 1024px)".toList).2.1
      (fun h => absurd ((includes_iff _ _).mpr h) (by decide))
      ((includes_iff _ _).mp (by decide)),
   by decide,
   (media_query_mock 1024 "(min-width: 1024px)".toList).2.2.2.2.1 1920 (by decide) (by decide)⟩

theorem matchesLoop_spec (found : List Nat) (this : Nat) :
    ∀ i : Nat, (matchesLoop found this i > -1 ↔ ∃ j, j < i ∧ found[j]? = some this) := by
  intro i
  induction i with
  | zero => simp [matchesLoop]
  | succ i ih =>
    unfold matchesLoop
    by_cases h : found[i]? = some this
    · rw [if_neg (not_not.mpr h)]
      constructor
      · intro _; exact ⟨i, Nat.lt_succ_self i, h⟩
      · intro _; omega
    · rw [if_pos h, ih]
      constructor
      · rintro ⟨j, hj, hf⟩; exact ⟨j, Nat.lt_succ_of_lt hj, hf⟩
      · rintro ⟨j, hj, hf⟩
        rcases Nat.lt_succ_iff_lt_or_eq.mp hj with h2 | h2
        · exact ⟨j, h2, hf⟩
        · rw [h2] at hf; exact absurd hf h

/-- C15 (fallback for `matches`): the fallback function is total; it returns
`true` exactly when `this` is one of the nodes of the list returned by
`querySelectorAll`, for a list of any length, and `false` for the empty list. -/
theorem matches_fallback (found : List Nat) (this : Nat) :
    (matchesFallback found this = true ↔ this ∈ found) ∧
    matchesFallback [] this = false := by
  constructor
  · unfold matchesFallback
    rw [decide_eq_true_iff, matchesLoop_spec, List.mem_iff_getElem?]
    constructor
    · rintro ⟨j, _, hf⟩; exact ⟨j, hf⟩
    · rintro ⟨j, hf⟩
      have hlt : j < found.length := by
        by_contra hge
        rw [List.getElem?_eq_none (by omega)] at hf
        cases hf
      exact ⟨j, hlt, hf⟩
  · rfl

/-- Witness of C15: a list of three nodes, one of them `this`. -/
theorem matches_fallback_witness :
    matchesFallback [4, 7, 9] 7 = true ∧ 7 ∈ [4, 7, 9] ∧ matchesFallback [4, 7, 9] 5 = false :=
  ⟨by decide, (matches_fallback [4, 7, 9] 7).1.mp (by decide), by decide⟩

theorem nodeType_root (node kind : Nat) : (DomNode.root node kind).nodeType = kind := rfl

theorem nodeType_child (node kind : Nat) (parent : DomNode) :
    (DomNode.child node kind parent).nodeType = kind := rfl

theorem closest_eq_find (elMatches : DomNode → Bool) (el : DomNode)
    (hel : el.nodeType = 1) (hdom : el.inDom = true) :
    closest elMatches el = el.path.find? fun n => n.nodeType == 1 && elMatches n := by
  induction el with
  | root node kind =>
    rw [nodeType_root] at hel
    subst hel
    simp only [closest, DomNode.path, List.find?_cons, List.find?_nil, nodeType_root,
      beq_self_eq_true, Bool.true_and]
    cases elMatches (DomNode.root node 1) <;> rfl
  | child node kind parent ih =>
    rw [nodeType_child] at hel
    subst hel
    simp only [DomNode.inDom, beq_self_eq_true, Bool.true_and] at hdom
    simp only [closest, DomNode.path, List.find?_cons, nodeType_child, beq_self_eq_true,
      Bool.true_and]
    cases hm : elMatches (DomNode.child node 1 parent)
    · simp only [Bool.false_eq_true, if_false]
      by_cases hp : parent.nodeType = 1
      · rw [if_pos hp]; exact ih hp hdom
      · rw [if_neg hp]
        cases parent with
        | root n k =>
          rw [nodeType_root] at hp
          simp [DomNode.path, nodeType_root, hp]
        | child n k gp =>
          simp only [DomNode.inDom, Bool.and_eq_true, beq_iff_eq] at hdom
          rw [nodeType_child] at hp
          exact absurd hdom.1 hp
    · simp

/-- C14 (polyfill for `closest`): for an element of a DOM tree (path to the
root finite, only elements have a parent) and any selector, the polyfill is
total and returns the first node on the path element, parent, grandparent, ...
that is an element matching the selector: every node before the result on the
path fails to match, and the result is `null` exactly when no element on the
path matches. -/
theorem closest_polyfill (elMatches : DomNode → Bool) (el : DomNode)
    (hel : el.nodeType = 1) (hdom : el.inDom = true) :
    (closest elMatches el = el.path.find? fun n => n.nodeType == 1 && elMatches n) ∧
    (closest elMatches el = none ↔
      ∀ n ∈ el.path, n.nodeType = 1 → elMatches n = false) ∧
    (∀ r, closest elMatches el = some r →
      r.nodeType = 1 ∧ elMatches r = true ∧
      ∃ before after, el.path = before ++ r :: after ∧
        ∀ n ∈ before, n.nodeType = 1 → elMatches n = false) := by
  have h := closest_eq_find elMatches el hel hdom
  refine ⟨h, ?_, ?_⟩
  · rw [h, List.find?_eq_none]
    constructor
    · intro hall n hn ht
      have := hall n hn
      simpa [ht] using this
    · intro hall n hn
      by_cases ht : n.nodeType = 1
      · simp [ht, hall n hn ht]
      · simp [ht]
  · intro r hr
    rw [h] at hr
    have hp := List.find?_some hr
    simp only [Bool.and_eq_true, beq_iff_eq] at hp
    refine ⟨hp.1, hp.2, ?_⟩
    obtain ⟨before, after, hpath, hbefore⟩ := List.find?_eq_some.mp hr |>.2
    refine ⟨before, after, hpath, ?_⟩
    intro n hn ht
    have := hbefore n hn
    simpa [ht] using this

/-- Witness of C14: an element under a `section` under `body`, below the
document; the selector matches the `section` (node 2) and the `body`
(node 1). -/
theorem closest_polyfill_witness :
    closest (fun n => decide (n = DomNode.child 2 1 (DomNode.child 1 1 (DomNode.root 0 9))) ||
          decide (n = DomNode.child 1 1 (DomNode.root 0 9)))
        (DomNode.child 3 1 (DomNode.child 2 1 (DomNode.child 1 1 (DomNode.root 0 9))))
      = some (DomNode.child 2 1 (DomNode.child 1 1 (DomNode.root 0 9))) ∧
    (closest (fun _ => false)
        (DomNode.child 3 1 (DomNode.child 2 1 (DomNode.child 1 1 (DomNode.root 0 9)))) = none ↔
      ∀ n ∈ (DomNode.child 3 1 (DomNode.child 2 1 (DomNode.child 1 1 (DomNode.root 0 9)))).path,
        n.nodeType = 1 → (fun _ => false) n = false) :=
  ⟨by decide,
   (closest_polyfill (fun _ => false)
      (DomNode.child 3 1 (DomNode.child 2 1 (DomNode.child 1 1 (DomNode.root 0 9))))
      (by decide) (by decide)).2.1⟩

/-! ## Lemmas on characters -/

theorem toUpper_cases (c : Char) :
    c.toUpper = c ∨ (97 ≤ c.toNat ∧ c.toNat ≤ 122 ∧ c.toUpper = Char.ofNat (c.toNat - 32)) := by
  unfold Char.toUpper
  by_cases h : c.toNat ≥ 97 ∧ c.toNat ≤ 122
  · right
    exact ⟨h.1, h.2, by simp only [h, and_self, if_true]⟩
  · left
    simp only [h, if_false]

theorem eq_ofNat_of_toNat (c : Char) (n : Nat) (h : c.toNat = n) : c = Char.ofNat n := by
  rw [← h, Char.ofNat_toNat]

theorem lit_lt_iff (c : Char) : (lit '<').test c = true ↔ c = '<' := by
  simp only [lit, beq_iff_eq]
  constructor
  · intro h
    rcases toUpper_cases c with h1 | ⟨h1, h2, h3⟩
    · rw [h1] at h; rw [h]; rfl
    · rw [h3] at h
      generalize c.toNat = n at h1 h2 h
      interval_cases n <;> exact absurd h (by decide)
  · intro h; rw [h]

theorem lit_gt_iff (c : Char) : (lit '>').test c = true ↔ c = '>' := by
  simp only [lit, beq_iff_eq]
  constructor
  · intro h
    rcases toUpper_cases c with h1 | ⟨h1, h2, h3⟩
    · rw [h1] at h; rw [h]; rfl
    · rw [h3] at h
      generalize c.toNat = n at h1 h2 h
      interval_cases n <;> exact absurd h (by decide)
  · intro h; rw [h]

theorem lit_slash_iff (c : Char) : (lit '/').test c = true ↔ c = '/' := by
  simp only [lit, beq_iff_eq]
  constructor
  · intro h
    rcases toUpper_cases c with h1 | ⟨h1, h2, h3⟩
    · rw [h1] at h; rw [h]; rfl
    · rw [h3] at h
      generalize c.toNat = n at h1 h2 h
      interval_cases n <;> exact absurd h (by decide)
  · intro h; rw [h]

theorem lit_h_iff (c : Char) : (lit 'h').test c = true ↔ c = 'h' ∨ c = 'H' := by
  simp only [lit, beq_iff_eq]
  constructor
  · intro h
    rcases toUpper_cases c with h1 | ⟨h1, h2, h3⟩
    · rw [h1] at h; right; rw [h]; rfl
    · rw [h3] at h
      left
      generalize hn : c.toNat = n at h1 h2 h
      have hc := eq_ofNat_of_toNat c n hn
      interval_cases n <;> first | exact hc | exact absurd h (by decide)
  · rintro (h | h)
    · rw [h]
    · rw [h]; rfl

theorem digit16_cases (d : Char) (h : digit16 d = true) :
    d = '1' ∨ d = '2' ∨ d = '3' ∨ d = '4' ∨ d = '5' ∨ d = '6' := by
  simp only [digit16, Bool.and_eq_true, decide_eq_true_eq] at h
  obtain ⟨h1, h2⟩ := h
  generalize hn : d.toNat = n at h1 h2
  have hc := eq_ofNat_of_toNat d n hn
  interval_cases n
  · exact Or.inl hc
  · exact Or.inr (Or.inl hc)
  · exact Or.inr (Or.inr (Or.inl hc))
  · exact Or.inr (Or.inr (Or.inr (Or.inl hc)))
  · exact Or.inr (Or.inr (Or.inr (Or.inr (Or.inl hc))))
  · exact Or.inr (Or.inr (Or.inr (Or.inr (Or.inr hc))))

theorem parseInt_digit16 (d : Char) (h : digit16 d = true) :
    parseInt [d] = d.toNat - 48 ∧ 1 ≤ parseInt [d] ∧ parseInt [d] ≤ 6 := by
  rcases digit16_cases d h with h | h | h | h | h | h <;> rw [h] <;> decide

theorem digit16_ne_lt (d : Char) (h : digit16 d = true) : d ≠ '<' := by
  rcases digit16_cases d h with h | h | h | h | h | h <;> rw [h] <;> decide

/-! ## Lemmas on the matcher -/

theorem greedy_notChar {α : Type} (x : Char) (k : List Char → Option α)
    (hk : ∀ c cs, c ≠ x → k (c :: cs) = none) (s : List Char) :
    greedy (notChar x) k s
      = (k (s.dropWhile (notChar x))).map fun r => (s.takeWhile (notChar x), r) := by
  induction s with
  | nil => rfl
  | cons c cs ih =>
    unfold greedy
    by_cases hc : notChar x c = true
    · have hne : c ≠ x := by simpa [notChar] using hc
      rw [if_pos hc, ih, List.dropWhile_cons_of_pos hc, List.takeWhile_cons_of_pos hc]
      cases hr : k (List.dropWhile (notChar x) cs) with
      | none => simp [hk c cs hne]
      | some r => rfl
    · rw [if_neg hc, List.dropWhile_cons_of_neg hc, List.takeWhile_cons_of_neg hc]

theorem dropWhile_notChar_eq (x : Char) (s after : List Char)
    (h : s.dropWhile (notChar x) = x :: after) :
    s = s.takeWhile (notChar x) ++ x :: after ∧ ∀ c ∈ s.takeWhile (notChar x), c ≠ x := by
  constructor
  · conv_lhs => rw [← List.takeWhile_append_dropWhile (notChar x) s, h]
  · intro c hc
    have := List.mem_takeWhile_imp hc
    simpa [notChar] using this

theorem takeWhile_notChar_append (x : Char) (attrs after : List Char)
    (h : ∀ c ∈ attrs, c ≠ x) :
    (attrs ++ x :: after).takeWhile (notChar x) = attrs ∧
    (attrs ++ x :: after).dropWhile (notChar x) = x :: after := by
  induction attrs with
  | nil => simp [notChar]
  | cons a as ih =>
    have ha : notChar x a = true := by simpa [notChar] using h a (List.mem_cons_self a as)
    have ih2 := ih fun c hc => h c (List.mem_cons_of_mem a hc)
    simp only [List.cons_append, List.takeWhile_cons_of_pos ha, List.dropWhile_cons_of_pos ha,
      ih2.1, ih2.2, and_self]

theorem matchItems_one (p : Char → Bool) (cap : Bool) (rest : List Item) (s : List Char)
    (r : List (List Char)) :
    matchItems (⟨p, Quant.one, cap⟩ :: rest) s = some r ↔
      ∃ c cs r2, s = c :: cs ∧ p c = true ∧ matchItems rest cs = some r2 ∧ r = [c] :: r2 := by
  cases s with
  | nil => simp [matchItems]
  | cons c cs =>
    simp only [matchItems]
    by_cases hp : p c = true
    · rw [if_pos hp]
      simp only [Option.map_eq_some', List.cons.injEq]
      constructor
      · rintro ⟨r2, h1, h2⟩; exact ⟨c, cs, r2, ⟨rfl, rfl⟩, hp, h1, h2.symm⟩
      · rintro ⟨c2, cs2, r2, ⟨h1, h2⟩, _, h3, h4⟩
        subst h1; subst h2
        exact ⟨r2, h3, h4.symm⟩
    · rw [if_neg hp]
      constructor
      · intro h; cases h
      · rintro ⟨c2, cs2, r2, h1, h3, _⟩
        simp only [List.cons.injEq] at h1
        rw [← h1.1] at h3
        exact absurd h3 hp

theorem matchItems_lit (p : Char) (rest : List Item) (s : List Char) (r : List (List Char)) :
    matchItems (lit p :: rest) s = some r ↔
      ∃ c cs r2, s = c :: cs ∧ (lit p).test c = true ∧ matchItems rest cs = some r2 ∧
        r = [c] :: r2 :=
  matchItems_one _ _ rest s r

theorem matchItems_lit_ne (p : Char) (rest : List Item) (c : Char) (cs : List Char)
    (h : (lit p).test c ≠ true) : matchItems (lit p :: rest) (c :: cs) = none := by
  cases hm : matchItems (lit p :: rest) (c :: cs) with
  | none => rfl
  | some r =>
    obtain ⟨c2, cs2, r2, h1, h2, _⟩ := (matchItems_lit p rest (c :: cs) r).mp hm
    simp only [List.cons.injEq] at h1
    rw [← h1.1] at h2
    exact absurd h2 h

theorem matchItems_star (p : Char → Bool) (cap : Bool) (rest : List Item) (s : List Char) :
    matchItems (⟨p, Quant.star, cap⟩ :: rest) s
      = (greedy p (matchItems rest) s).map fun r => r.1 :: r.2 := by
  rw [matchItems]

theorem matchItems_plus (p : Char → Bool) (cap : Bool) (rest : List Item) (c : Char)
    (cs : List Char) :
    matchItems (⟨p, Quant.plus, cap⟩ :: rest) (c :: cs)
      = if p c then (greedy p (matchItems rest) cs).map fun r => (c :: r.1) :: r.2
        else none := by
  rw [matchItems]

theorem matchItems_star_gt (rest : List Item) (s : List Char) (r : List (List Char)) :
    matchItems (⟨notChar '>', Quant.star, false⟩ :: lit '>' :: rest) s = some r ↔
      ∃ after r2, s.dropWhile (notChar '>') = '>' :: after ∧
        matchItems rest after = some r2 ∧
        r = s.takeWhile (notChar '>') :: ['>'] :: r2 := by
  have hk : ∀ c cs, c ≠ '>' → matchItems (lit '>' :: rest) (c :: cs) = none := by
    intro c cs hc
    exact matchItems_lit_ne _ _ _ _ fun h => hc ((lit_gt_iff c).mp h)
  rw [matchItems_star, greedy_notChar '>' _ hk]
  simp only [Option.map_map, Option.map_eq_some', Function.comp]
  constructor
  · rintro ⟨r1, h1, h2⟩
    obtain ⟨c, cs, r2, h3, h4, h5, h6⟩ := (matchItems_lit _ _ _ _).mp h1
    have hc := (lit_gt_iff c).mp h4
    subst hc
    exact ⟨cs, r2, h3, h5, by rw [← h2, h6]⟩
  · rintro ⟨after, r2, h1, h2, h3⟩
    refine ⟨['>'] :: r2, ?_, h3.symm⟩
    rw [h1]
    exact (matchItems_lit _ _ _ _).mpr ⟨'>', after, r2, rfl, (lit_gt_iff _).mpr rfl, h2, rfl⟩

theorem star_gt_append_iff (rest : List Item) (s : List Char) (r : List (List Char)) :
    matchItems (⟨notChar '>', Quant.star, false⟩ :: lit '>' :: rest) s = some r ↔
      ∃ attrs after r2, s = attrs ++ '>' :: after ∧ (∀ c ∈ attrs, c ≠ '>') ∧
        matchItems rest after = some r2 ∧ r = attrs :: ['>'] :: r2 := by
  rw [matchItems_star_gt]
  constructor
  · rintro ⟨after, r2, h1, h2, h3⟩
    obtain ⟨h4, h5⟩ := dropWhile_notChar_eq '>' s after h1
    exact ⟨_, after, r2, h4, h5, h2, h3⟩
  · rintro ⟨attrs, after, r2, h1, h2, h3, h4⟩
    obtain ⟨h5, h6⟩ := takeWhile_notChar_append '>' attrs after h2
    subst h1
    exact ⟨after, r2, h6, h3, by rw [h5]; exact h4⟩

theorem open_tag_iff (rest : List Item) (t : List Char) (r : List (List Char)) :
    matchItems (lit '<' :: lit 'h' :: ⟨digit16, Quant.one, true⟩ ::
        ⟨notChar '>', Quant.star, false⟩ :: lit '>' :: rest) t = some r ↔
      ∃ c1 d attrs after r2, t = '<' :: c1 :: d :: (attrs ++ '>' :: after) ∧
        (c1 = 'h' ∨ c1 = 'H') ∧ digit16 d = true ∧ (∀ c ∈ attrs, c ≠ '>') ∧
        matchItems rest after = some r2 ∧
        r = ['<'] :: [c1] :: [d] :: attrs :: ['>'] :: r2 := by
  constructor
  · intro h
    obtain ⟨c0, s1, r1, e0, p0, m1, q0⟩ := (matchItems_lit _ _ _ _).mp h
    obtain ⟨c1, s2, r2, e1, p1, m2, q1⟩ := (matchItems_lit _ _ _ _).mp m1
    obtain ⟨d, s3, r3, e2, p2, m3, q2⟩ := (matchItems_one _ _ _ _ _).mp m2
    obtain ⟨attrs, after, r4, e3, p3, m4, q3⟩ := (star_gt_append_iff _ _ _).mp m3
    have hc0 := (lit_lt_iff c0).mp p0
    subst hc0
    refine ⟨c1, d, attrs, after, r4, ?_, (lit_h_iff c1).mp p1, p2, p3, m4, ?_⟩
    · rw [e0, e1, e2, e3]
    · rw [q0, q1, q2, q3]
  · rintro ⟨c1, d, attrs, after, r2, e, p1, p2, p3, m, q⟩
    subst e; subst q
    refine (matchItems_lit _ _ _ _).mpr ⟨'<', _, _, rfl, (lit_lt_iff _).mpr rfl, ?_, rfl⟩
    refine (matchItems_lit _ _ _ _).mpr ⟨c1, _, _, rfl, (lit_h_iff _).mpr p1, ?_, rfl⟩
    refine (matchItems_one _ _ _ _ _).mpr ⟨d, _, _, rfl, p2, ?_, rfl⟩
    exact (star_gt_append_iff _ _ _).mpr ⟨attrs, after, r2, rfl, p3, m, rfl⟩

theorem opening_iff (t : List Char) (r : List (List Char)) :
    matchItems openingRegex t = some r ↔
      ∃ c1 d attrs after, t = '<' :: c1 :: d :: (attrs ++ '>' :: after) ∧
        (c1 = 'h' ∨ c1 = 'H') ∧ digit16 d = true ∧ (∀ c ∈ attrs, c ≠ '>') ∧
        r = [['<'], [c1], [d], attrs, ['>']] := by
  unfold openingRegex
  rw [open_tag_iff]
  constructor
  · rintro ⟨c1, d, attrs, after, r2, e, p1, p2, p3, m, q⟩
    simp only [matchItems, Option.some.injEq] at m
    subst m
    exact ⟨c1, d, attrs, after, e, p1, p2, p3, q⟩
  · rintro ⟨c1, d, attrs, after, e, p1, p2, p3, q⟩
    exact ⟨c1, d, attrs, after, [], e, p1, p2, p3, by simp only [matchItems], q⟩

/-- The items `([^<]+)<\/h[1-6]>` that follow the opening tag in `headingRegex`. -/
theorem close_part_iff (u : List Char) (r : List (List Char)) :
    matchItems [⟨notChar '<', Quant.plus, true⟩, lit '<', lit '/', lit 'h',
        ⟨digit16, Quant.one, false⟩, lit '>'] u = some r ↔
      ∃ text h2 d2 w, u = text ++ '<' :: '/' :: h2 :: d2 :: '>' :: w ∧ text ≠ [] ∧
        (∀ c ∈ text, c ≠ '<') ∧ (h2 = 'h' ∨ h2 = 'H') ∧ digit16 d2 = true ∧
        r = [text, ['<'], ['/'], [h2], [d2], ['>']] := by
  have hk : ∀ c cs, c ≠ '<' →
      matchItems [lit '<', lit '/', lit 'h', ⟨digit16, Quant.one, false⟩, lit '>'] (c :: cs)
        = none := by
    intro c cs hc
    exact matchItems_lit_ne _ _ _ _ fun h => hc ((lit_lt_iff c).mp h)
  have htail : ∀ v r1,
      matchItems [lit '<', lit '/', lit 'h', ⟨digit16, Quant.one, false⟩, lit '>'] v = some r1 ↔
        ∃ h2 d2 w, v = '<' :: '/' :: h2 :: d2 :: '>' :: w ∧ (h2 = 'h' ∨ h2 = 'H') ∧
          digit16 d2 = true ∧ r1 = [['<'], ['/'], [h2], [d2], ['>']] := by
    intro v r1
    constructor
    · intro h
      obtain ⟨c0, s1, r2, e0, p0, m1, q0⟩ := (matchItems_lit _ _ _ _).mp h
      obtain ⟨c1, s2, r3, e1, p1, m2, q1⟩ := (matchItems_lit _ _ _ _).mp m1
      obtain ⟨c2, s3, r4, e2, p2, m3, q2⟩ := (matchItems_lit _ _ _ _).mp m2
      obtain ⟨d2, s4, r5, e3, p3, m4, q3⟩ := (matchItems_one _ _ _ _ _).mp m3
      obtain ⟨c4, s5, r6, e4, p4, m5, q4⟩ := (matchItems_lit _ _ _ _).mp m4
      have h0 := (lit_lt_iff c0).mp p0
      have h1 := (lit_slash_iff c1).mp p1
      have h4 := (lit_gt_iff c4).mp p4
      simp only [matchItems, Option.some.injEq] at m5
      subst h0; subst h1; subst h4; subst m5
      exact ⟨c2, d2, s5, by rw [e0, e1, e2, e3, e4], (lit_h_iff c2).mp p2, p3,
        by rw [q0, q1, q2, q3, q4]⟩
    · rintro ⟨h2, d2, w, e, p1, p2, q⟩
      subst e; subst q
      refine (matchItems_lit _ _ _ _).mpr ⟨'<', _, _, rfl, (lit_lt_iff _).mpr rfl, ?_, rfl⟩
      refine (matchItems_lit _ _ _ _).mpr ⟨'/', _, _, rfl, (lit_slash_iff _).mpr rfl, ?_, rfl⟩
      refine (matchItems_lit _ _ _ _).mpr ⟨h2, _, _, rfl, (lit_h_iff _).mpr p1, ?_, rfl⟩
      refine (matchItems_one _ _ _ _ _).mpr ⟨d2, _, _, rfl, p2, ?_, rfl⟩
      exact (matchItems_lit _ _ _ _).mpr ⟨'>', _, _, rfl, (lit_gt_iff _).mpr rfl,
        by simp only [matchItems], rfl⟩
  cases u with
  | nil =>
    constructor
    · intro h; simp [matchItems] at h
    · rintro ⟨text, h2, d2, w, e, _⟩
      cases text <;> simp at e
  | cons c cs =>
    rw [matchItems_plus]
    by_cases hc : notChar '<' c = true
    · have hne : c ≠ '<' := by simpa [notChar] using hc
      rw [if_pos hc, greedy_notChar '<' _ hk]
      simp only [Option.map_map, Option.map_eq_some', Function.comp]
      constructor
      · rintro ⟨r1, h1, h2⟩
        obtain ⟨h2c, d2, w, e, p1, p2, q⟩ := (htail _ _).mp h1
        obtain ⟨h4, h5⟩ := dropWhile_notChar_eq '<' cs _ e
        refine ⟨c :: cs.takeWhile (notChar '<'), h2c, d2, w, ?_, by simp, ?_, p1, p2, ?_⟩
        · rw [List.cons_append, ← h4]
        · intro x hx
          rcases List.mem_cons.mp hx with hx | hx
          · rw [hx]; exact hne
          · exact h5 x hx
        · rw [← h2, q]
      · rintro ⟨text, h2c, d2, w, e, hne2, hno, p1, p2, q⟩
        cases text with
        | nil => exact absurd rfl hne2
        | cons a as =>
          simp only [List.cons_append, List.cons.injEq] at e
          obtain ⟨e1, e2⟩ := e
          subst e1
          obtain ⟨h5, h6⟩ := takeWhile_notChar_append '<' as ('/' :: h2c :: d2 :: '>' :: w)
            fun x hx => hno x (List.mem_cons_of_mem _ hx)
          refine ⟨[['<'], ['/'], [h2c], [d2], ['>']], ?_, ?_⟩
          · rw [e2, h6]
            exact (htail _ _).mpr ⟨h2c, d2, w, rfl, p1, p2, rfl⟩
          · rw [e2, h5, q]
    · rw [if_neg hc]
      constructor
      · intro h; cases h
      · rintro ⟨text, h2, d2, w, e, hne2, hno, _⟩
        cases text with
        | nil => exact absurd rfl hne2
        | cons a as =>
          simp only [List.cons_append, List.cons.injEq] at e
          have := hno a (List.mem_cons_self a as)
          rw [← e.1] at this
          exact absurd (by simpa [notChar] using this) hc

theorem heading_iff (t : List Char) (r : List (List Char)) :
    matchItems headingRegex t = some r ↔
      ∃ c1 d attrs text h2 d2 w,
        t = '<' :: c1 :: d :: (attrs ++ '>' :: (text ++ '<' :: '/' :: h2 :: d2 :: '>' :: w)) ∧
        (c1 = 'h' ∨ c1 = 'H') ∧ digit16 d = true ∧ (∀ c ∈ attrs, c ≠ '>') ∧ text ≠ [] ∧
        (∀ c ∈ text, c ≠ '<') ∧ (h2 = 'h' ∨ h2 = 'H') ∧ digit16 d2 = true ∧
        r = [['<'], [c1], [d], attrs, ['>'], text, ['<'], ['/'], [h2], [d2], ['>']] := by
  unfold headingRegex
  rw [open_tag_iff]
  constructor
  · rintro ⟨c1, d, attrs, after, r2, e, p1, p2, p3, m, q⟩
    obtain ⟨text, h2, d2, w, e2, hne, hno, p4, p5, q2⟩ := (close_part_iff _ _).mp m
    exact ⟨c1, d, attrs, text, h2, d2, w, by rw [e, e2], p1, p2, p3, hne, hno, p4, p5,
      by rw [q, q2]⟩
  · rintro ⟨c1, d, attrs, text, h2, d2, w, e, p1, p2, p3, hne, hno, p4, p5, q⟩
    exact ⟨c1, d, attrs, _, _, e, p1, p2, p3,
      (close_part_iff _ _).mpr ⟨text, h2, d2, w, rfl, hne, hno, p4, p5, rfl⟩, q⟩

/-! ## Lemmas on the scan -/

theorem mem_scanFrom (re : List Item) (s : List Char) :
    ∀ (pos skip : Nat) (m : RegexMatch), m ∈ scanFrom re s pos skip →
      ∃ k, skip ≤ k ∧ k < s.length ∧ m.index = pos + k ∧
        matchItems re (s.drop k) = some m.segs := by
  induction s with
  | nil => intro pos skip m hm; simp [scanFrom] at hm
  | cons c cs ih =>
    intro pos skip m hm
    cases skip with
    | succ skip =>
      rw [scanFrom] at hm
      obtain ⟨k, h1, h2, h3, h4⟩ := ih (pos + 1) skip m hm
      exact ⟨k + 1, by omega, by simp only [List.length_cons]; omega, by omega, by simpa using h4⟩
    | zero =>
      rw [scanFrom] at hm
      cases hmatch : matchItems re (c :: cs) with
      | none =>
        rw [hmatch] at hm
        obtain ⟨k, _, h2, h3, h4⟩ := ih (pos + 1) 0 m hm
        exact ⟨k + 1, by omega, by simp only [List.length_cons]; omega, by omega,
          by simpa using h4⟩
      | some segs =>
        rw [hmatch] at hm
        rcases List.mem_cons.mp hm with h | h
        · subst h
          exact ⟨0, le_refl 0, by simp, rfl, by simpa using hmatch⟩
        · obtain ⟨k, _, h2, h3, h4⟩ := ih (pos + 1) _ m h
          exact ⟨k + 1, by omega, by simp only [List.length_cons]; omega, by omega,
            by simpa using h4⟩

theorem getElem?_of_drop_eq (s : List Char) (k : Nat) (a b c : Char) (rest : List Char)
    (h : s.drop k = a :: b :: c :: rest) :
    s[k]? = some a ∧ s[k + 1]? = some b ∧ s[k + 2]? = some c := by
  have h0 : (s.drop k)[0]? = some a := by rw [h]; rfl
  have h1 : (s.drop k)[1]? = some b := by rw [h]; rfl
  have h2 : (s.drop k)[2]? = some c := by rw [h]; simp
  rw [List.getElem?_drop] at h0 h1 h2
  exact ⟨by simpa using h0, h1, h2⟩

/-- C13 (heading record range): every record of the extraction loop has a level
between 1 and 6; the text has `<`, then `h` or `H`, then a digit of `1` to `6` at
the position of the record, and the level is the value of that digit.  The
levels of the ordering test are between 1 and 6 as well. -/
theorem heading_record_range (htmlContent : List Char) :
    (∀ h ∈ headings htmlContent,
      1 ≤ h.level ∧ h.level ≤ 6 ∧
      ∃ c1 d, htmlContent[h.position]? = some '<' ∧
        htmlContent[h.position + 1]? = some c1 ∧ (c1 = 'h' ∨ c1 = 'H') ∧
        htmlContent[h.position + 2]? = some d ∧ digit16 d = true ∧
        h.level = d.toNat - 48) ∧
    (∀ l ∈ levels htmlContent, 1 ≤ l ∧ l ≤ 6) := by
  constructor
  · intro h hmem
    simp only [headings, matchAll, List.mem_map] at hmem
    obtain ⟨m, hm, hh⟩ := hmem
    obtain ⟨k, _, _, hidx, hmatch⟩ := mem_scanFrom _ _ _ _ m hm
    obtain ⟨c1, d, attrs, text, h2, d2, w, e, p1, p2, _, _, _, _, _, q⟩ :=
      (heading_iff _ _).mp hmatch
    have hg : group headingRegex m 1 = [d] := by
      simp only [group]; rw [q]; rfl
    obtain ⟨g1, g2, g3⟩ := parseInt_digit16 d p2
    obtain ⟨e0, e1, e2⟩ := getElem?_of_drop_eq _ _ _ _ _ _ e
    have hpos : h.position = k := by rw [← hh]; simpa using hidx
    have hlev : h.level = parseInt [d] := by rw [← hh, ← hg]
    rw [hpos, hlev]
    exact ⟨g2, g3, c1, d, e0, e1, p1, e2, p2, g1⟩
  · intro l hmem
    simp only [levels, matchAll, List.mem_map] at hmem
    obtain ⟨m, hm, hh⟩ := hmem
    obtain ⟨k, _, _, _, hmatch⟩ := mem_scanFrom _ _ _ _ m hm
    obtain ⟨c1, d, attrs, after, e, p1, p2, _, q⟩ := (opening_iff _ _).mp hmatch
    have hg : group openingRegex m 1 = [d] := by
      simp only [group]; rw [q]; rfl
    obtain ⟨_, g2, g3⟩ := parseInt_digit16 d p2
    rw [← hh, hg]
    exact ⟨g2, g3⟩

/-- Witness of C13: the second record of a two-heading document. -/
theorem heading_record_range_witness :
    (⟨3, ['B'], 15⟩ : Heading) ∈ headings "<h1>A</h1> and <H3 id=x>B</h3>".toList ∧
    1 ≤ (⟨3, ['B'], 15⟩ : Heading).level ∧ (⟨3, ['B'], 15⟩ : Heading).level ≤ 6 :=
  ⟨by decide,
   ((heading_record_range "<h1>A</h1> and <H3 id=x>B</h3>".toList).1 ⟨3, ['B'], 15⟩
      (by decide)).1,
   ((heading_record_range "<h1>A</h1> and <H3 id=x>B</h3>".toList).1 ⟨3, ['B'], 15⟩
      (by decide)).2.1⟩

theorem greedy_some {α : Type} (p : Char → Bool) (k : List Char → Option α) (s : List Char) :
    ∀ (seg : List Char) (r : α), greedy p k s = some (seg, r) →
      ∃ rest, s = seg ++ rest ∧ k rest = some r := by
  induction s with
  | nil =>
    intro seg r h
    simp only [greedy, Option.map_eq_some', Prod.mk.injEq] at h
    obtain ⟨a, h1, h2, h3⟩ := h
    exact ⟨[], by rw [← h2]; rfl, by rw [← h3]; exact h1⟩
  | cons c cs ih =>
    intro seg r h
    have hback : Option.map (fun r => (([] : List Char), r)) (k (c :: cs)) = some (seg, r) →
        ∃ rest, c :: cs = seg ++ rest ∧ k rest = some r := by
      intro h
      simp only [Option.map_eq_some', Prod.mk.injEq] at h
      obtain ⟨a, h1, h2, h3⟩ := h
      exact ⟨c :: cs, by rw [← h2]; rfl, by rw [← h3]; exact h1⟩
    unfold greedy at h
    by_cases hp : p c = true
    · rw [if_pos hp] at h
      cases hg : greedy p k cs with
      | none => rw [hg] at h; exact hback h
      | some x =>
        obtain ⟨seg2, r2⟩ := x
        rw [hg] at h
        simp only [Option.some.injEq, Prod.mk.injEq] at h
        obtain ⟨rest, h1, h2⟩ := ih seg2 r2 hg
        exact ⟨rest, by rw [← h.1, h1]; rfl, by rw [← h.2]; exact h2⟩
    · rw [if_neg hp] at h
      exact hback h

theorem matchItems_flatten (re : List Item) :
    ∀ (t : List Char) (segs : List (List Char)), matchItems re t = some segs →
      ∃ rest, t = segs.flatten ++ rest := by
  induction re with
  | nil =>
    intro t segs h
    simp only [matchItems, Option.some.injEq] at h
    exact ⟨t, by rw [← h]; rfl⟩
  | cons item rest ih =>
    intro t segs h
    obtain ⟨p, q, cap⟩ := item
    cases q with
    | one =>
      obtain ⟨c, cs, r2, e, _, m, hs⟩ := (matchItems_one _ _ _ _ _).mp h
      obtain ⟨w, hw⟩ := ih cs r2 m
      exact ⟨w, by rw [e, hs, hw]; simp⟩
    | star =>
      rw [matchItems_star] at h
      simp only [Option.map_eq_some'] at h
      obtain ⟨⟨seg, r⟩, hg, hs⟩ := h
      obtain ⟨u, hu, hk⟩ := greedy_some _ _ _ _ _ hg
      obtain ⟨w, hw⟩ := ih u r hk
      exact ⟨w, by rw [hu, ← hs, hw]; simp⟩
    | plus =>
      cases t with
      | nil => simp [matchItems] at h
      | cons c cs =>
        rw [matchItems_plus] at h
        by_cases hp : p c = true
        · rw [if_pos hp] at h
          simp only [Option.map_eq_some'] at h
          obtain ⟨⟨seg, r⟩, hg, hs⟩ := h
          obtain ⟨u, hu, hk⟩ := greedy_some _ _ _ _ _ hg
          obtain ⟨w, hw⟩ := ih u r hk
          exact ⟨w, by rw [hu, ← hs, hw]; simp⟩
        · rw [if_neg hp] at h; cases h

theorem matchItems_length_le (re : List Item) (t : List Char) (segs : List (List Char))
    (h : matchItems re t = some segs) : segs.flatten.length ≤ t.length := by
  obtain ⟨rest, hr⟩ := matchItems_flatten re t segs h
  rw [hr, List.length_append]
  exact Nat.le_add_right _ _

theorem scanFrom_skip (re : List Item) :
    ∀ (skip : Nat) (s : List Char) (pos : Nat),
      scanFrom re s pos skip = scanFrom re (s.drop skip) (pos + skip) 0 := by
  intro skip
  induction skip with
  | zero => intro s pos; rfl
  | succ n ih =>
    intro s pos
    cases s with
    | nil => simp [scanFrom]
    | cons c cs =>
      rw [scanFrom, ih cs (pos + 1), List.drop_succ_cons]
      congr 1
      omega

theorem firstMatch_some (re : List Item) (s : List Char) :
    ∀ (pos : Nat) (m : RegexMatch), firstMatch re s pos = some m →
      ∃ k, k < s.length ∧ m.index = pos + k ∧ matchItems re (s.drop k) = some m.segs := by
  induction s with
  | nil => intro pos m h; simp [firstMatch] at h
  | cons c cs ih =>
    intro pos m h
    rw [firstMatch] at h
    cases hm : matchItems re (c :: cs) with
    | some segs =>
      rw [hm] at h
      simp only [Option.some.injEq] at h
      subst h
      exact ⟨0, by simp, rfl, by simpa using hm⟩
    | none =>
      rw [hm] at h
      obtain ⟨k, h1, h2, h3⟩ := ih (pos + 1) m h
      exact ⟨k + 1, by simp only [List.length_cons]; omega, by omega, by simpa using h3⟩

theorem scanFrom_eq_firstMatch (re : List Item) (s : List Char) :
    ∀ pos : Nat, scanFrom re s pos 0 =
      match firstMatch re s pos with
      | none => []
      | some m =>
        m :: scanFrom re (s.drop (m.index - pos + 1)) (m.index + 1) (m.segs.flatten.length - 1) := by
  induction s with
  | nil => intro pos; rfl
  | cons c cs ih =>
    intro pos
    rw [scanFrom, firstMatch]
    cases hm : matchItems re (c :: cs) with
    | some segs => simp
    | none =>
      simp only
      rw [ih (pos + 1)]
      cases hf : firstMatch re cs (pos + 1) with
      | none => rfl
      | some m =>
        obtain ⟨k, _, h2, _⟩ := firstMatch_some re cs (pos + 1) m hf
        simp only
        have e : m.index - pos + 1 = (m.index - (pos + 1) + 1) + 1 := by omega
        rw [e, List.drop_succ_cons]

theorem execLoop_eq_scan (re : List Item) (s : List Char)
    (hne : ∀ t segs, matchItems re t = some segs → 1 ≤ segs.flatten.length) :
    ∀ (fuel lastIndex : Nat), lastIndex ≤ s.length → s.length < fuel + lastIndex →
      execLoop re s fuel lastIndex = some (scanFrom re (s.drop lastIndex) lastIndex 0) := by
  intro fuel
  induction fuel with
  | zero => intro lastIndex h1 h2; omega
  | succ fuel ih =>
    intro lastIndex h1 h2
    rw [execLoop, exec, scanFrom_eq_firstMatch]
    cases hf : firstMatch re (s.drop lastIndex) lastIndex with
    | none => rfl
    | some m =>
      obtain ⟨k, hk, hidx, hm⟩ := firstMatch_some re _ lastIndex m hf
      have hlen1 := hne _ _ hm
      have hlen2 := matchItems_length_le re _ _ hm
      simp only [List.length_drop] at hk hlen2
      have htext : m.text.length = m.segs.flatten.length := rfl
      simp only
      rw [ih (m.index + m.text.length) (by omega) (by omega), scanFrom_skip re _ _ (m.index + 1)]
      simp only [Option.map_some', List.drop_drop, Option.some.injEq, List.cons.injEq, true_and]
      have e1 : lastIndex + (m.index - lastIndex + 1) + (m.segs.flatten.length - 1)
          = m.index + m.text.length := by omega
      have e2 : m.index + 1 + (m.segs.flatten.length - 1) = m.index + m.text.length := by omega
      rw [e1, e2]

theorem scanFrom_pairwise (re : List Item) (s : List Char) :
    ∀ (pos skip : Nat),
      List.Pairwise (fun a b : RegexMatch => a.index + a.text.length ≤ b.index ∧ a.index < b.index)
        (scanFrom re s pos skip) := by
  induction s with
  | nil => intro pos skip; simp [scanFrom]
  | cons c cs ih =>
    intro pos skip
    cases skip with
    | succ skip => rw [scanFrom]; exact ih (pos + 1) skip
    | zero =>
      rw [scanFrom]
      cases hm : matchItems re (c :: cs) with
      | none => exact ih (pos + 1) 0
      | some segs =>
        simp only
        refine List.Pairwise.cons ?_ (ih (pos + 1) _)
        intro b hb
        obtain ⟨k, h1, _, h3, _⟩ := mem_scanFrom re cs _ _ b hb
        have htext : (⟨pos, segs⟩ : RegexMatch).text.length = segs.flatten.length := rfl
        simp only [htext]
        omega

theorem headingRegex_nonempty (t : List Char) (segs : List (List Char))
    (h : matchItems headingRegex t = some segs) : 1 ≤ segs.flatten.length := by
  obtain ⟨c, cs, r2, _, _, _, hs⟩ := (matchItems_lit _ _ _ _).mp h
  rw [hs]; simp

theorem openingRegex_nonempty (t : List Char) (segs : List (List Char))
    (h : matchItems openingRegex t = some segs) : 1 ≤ segs.flatten.length := by
  obtain ⟨c, cs, r2, _, _, _, hs⟩ := (matchItems_lit _ _ _ _).mp h
  rw [hs]; simp

/-- C16 (terminating forward scan): on every text the two extraction loops end
after at most `length + 1` calls of `exec` and yield the matches of the scan;
the positions of the heading records are strictly increasing; every match is
non-empty, lies within the text, and ends before the next match starts. -/
theorem heading_scan_terminates (htmlContent : List Char) :
    (∀ fuel, htmlContent.length < fuel →
      execLoop headingRegex htmlContent fuel 0 = some (matchAll headingRegex htmlContent) ∧
      execLoop openingRegex htmlContent fuel 0 = some (matchAll openingRegex htmlContent)) ∧
    List.Pairwise (fun a b => a < b) ((headings htmlContent).map Heading.position) ∧
    List.Pairwise (fun a b : RegexMatch => a.index + a.text.length ≤ b.index)
      (matchAll headingRegex htmlContent) ∧
    List.Pairwise (fun a b : RegexMatch => a.index < b.index ∧ a.index + a.text.length ≤ b.index)
      (matchAll openingRegex htmlContent) ∧
    (∀ m ∈ matchAll headingRegex htmlContent,
      0 < m.text.length ∧ m.index + m.text.length ≤ htmlContent.length) := by
  refine ⟨?_, ?_, ?_, ?_, ?_⟩
  · intro fuel hf
    constructor
    · have := execLoop_eq_scan headingRegex htmlContent headingRegex_nonempty fuel 0
        (Nat.zero_le _) (by omega)
      simpa [matchAll] using this
    · have := execLoop_eq_scan openingRegex htmlContent openingRegex_nonempty fuel 0
        (Nat.zero_le _) (by omega)
      simpa [matchAll] using this
  · simp only [headings, List.map_map, List.pairwise_map, Function.comp]
    exact (scanFrom_pairwise headingRegex htmlContent 0 0).imp fun h => h.2
  · exact (scanFrom_pairwise headingRegex htmlContent 0 0).imp fun h => h.1
  · exact (scanFrom_pairwise openingRegex htmlContent 0 0).imp fun h => ⟨h.2, h.1⟩
  · intro m hm
    obtain ⟨k, _, hk, hidx, hmatch⟩ := mem_scanFrom _ _ _ _ m hm
    have h1 := headingRegex_nonempty _ _ hmatch
    have h2 := matchItems_length_le _ _ _ hmatch
    simp only [List.length_drop] at h2
    have htext : m.text.length = m.segs.flatten.length := rfl
    omega

/-- Witness of C16: two headings, found by three calls of `exec`. -/
theorem heading_scan_terminates_witness :
    execLoop headingRegex "<h1>A</h1><h2>B</h2>".toList 3 0
      = some (matchAll headingRegex "<h1>A</h1><h2>B</h2>".toList) ∧
    (headings "<h1>A</h1><h2>B</h2>".toList).map Heading.position = [0, 10] ∧
    execLoop headingRegex "<h1>A</h1><h2>B</h2>".toList 21 0
      = some (matchAll headingRegex "<h1>A</h1><h2>B</h2>".toList) :=
  ⟨by decide, by decide,
   ((heading_scan_terminates "<h1>A</h1><h2>B</h2>".toList).1 21 (by decide)).1⟩

/-! ## Lemmas on well-formed headings -/

theorem closedByHeading_iff (u : List Char) :
    closedByHeading u = true ↔
      ∃ text h2 d2 w, u = text ++ '<' :: '/' :: h2 :: d2 :: '>' :: w ∧ text ≠ [] ∧
        (∀ c ∈ text, c ≠ '<') ∧ (h2 = 'h' ∨ h2 = 'H') ∧ digit16 d2 = true := by
  have hfun : (fun c : Char => c != '<') = notChar '<' := rfl
  constructor
  · intro h
    unfold closedByHeading at h
    rw [hfun] at h
    split at h
    next h2 d2 w heq =>
      simp only [Bool.and_eq_true, Bool.not_eq_true', Bool.or_eq_true, beq_iff_eq] at h
      obtain ⟨⟨h3, h4⟩, h5⟩ := h
      obtain ⟨e1, e2⟩ := dropWhile_notChar_eq '<' u _ heq
      refine ⟨_, h2, d2, w, e1, ?_, e2, h4, h5⟩
      intro h0
      rw [h0] at h3
      simp at h3
    next => cases h
  · rintro ⟨text, h2, d2, w, e, hne, hno, p1, p2⟩
    obtain ⟨e1, e2⟩ := takeWhile_notChar_append '<' text ('/' :: h2 :: d2 :: '>' :: w) hno
    unfold closedByHeading
    rw [hfun, e, e2, e1]
    simp only [Bool.and_eq_true, Bool.not_eq_true', Bool.or_eq_true, beq_iff_eq, p2, and_true]
    refine ⟨?_, p1⟩
    cases text with
    | nil => exact absurd rfl hne
    | cons a as => rfl

theorem wellFormedHeadings_cons (c : Char) (cs : List Char)
    (h : wellFormedHeadings (c :: cs) = true) : wellFormedHeadings cs = true := by
  rw [wellFormedHeadings, Bool.and_eq_true] at h
  exact h.2

theorem wellFormedHeadings_drop (k : Nat) :
    ∀ s : List Char, wellFormedHeadings s = true → wellFormedHeadings (s.drop k) = true := by
  induction k with
  | zero => intro s h; exact h
  | succ k ih =>
    intro s h
    cases s with
    | nil => exact h
    | cons c cs => exact ih cs (wellFormedHeadings_cons c cs h)

theorem wellFormedHeadings_at (s : List Char) (segs : List (List Char))
    (h : wellFormedHeadings s = true) (hm : matchItems openingRegex s = some segs) :
    closedByHeading (s.drop segs.flatten.length) = true := by
  cases s with
  | nil =>
    obtain ⟨c, cs, r2, e, _⟩ := (matchItems_lit _ _ _ _).mp hm
    cases e
  | cons c cs =>
    rw [wellFormedHeadings, Bool.and_eq_true, hm] at h
    exact h.1

theorem opening_none_of_ne (c : Char) (cs : List Char) (h : c ≠ '<') :
    matchItems openingRegex (c :: cs) = none :=
  matchItems_lit_ne _ _ _ _ fun h2 => h ((lit_lt_iff c).mp h2)

theorem opening_none_slash (cs : List Char) :
    matchItems openingRegex ('<' :: '/' :: cs) = none := by
  cases hm : matchItems openingRegex ('<' :: '/' :: cs) with
  | none => rfl
  | some r =>
    obtain ⟨c1, d, attrs, after, e, p1, _⟩ := (opening_iff _ _).mp hm
    simp only [List.cons.injEq, true_and] at e
    rcases p1 with p | p <;> rw [p] at e <;> exact absurd e.1 (by decide)

theorem heading_none_of_opening_none (t : List Char) (h : matchItems openingRegex t = none) :
    matchItems headingRegex t = none := by
  cases hm : matchItems headingRegex t with
  | none => rfl
  | some r =>
    obtain ⟨c1, d, attrs, text, h2, d2, w, e, p1, p2, p3, _⟩ := (heading_iff _ _).mp hm
    have := (opening_iff t [['<'], [c1], [d], attrs, ['>']]).mpr
      ⟨c1, d, attrs, _, e, p1, p2, p3, rfl⟩
    rw [h] at this
    cases this

theorem scanFrom_text (text : List Char) (hno : ∀ c ∈ text, c ≠ '<') :
    ∀ (rest : List Char) (pos : Nat),
      scanFrom openingRegex (text ++ rest) pos 0
        = scanFrom openingRegex rest (pos + text.length) 0 := by
  induction text with
  | nil => intro rest pos; rfl
  | cons a as ih =>
    intro rest pos
    have ha : a ≠ '<' := hno a (List.mem_cons_self a as)
    rw [List.cons_append, scanFrom, opening_none_of_ne a _ ha]
    simp only
    rw [ih (fun c hc => hno c (List.mem_cons_of_mem a hc)) rest (pos + 1)]
    congr 1
    simp only [List.length_cons]
    omega

theorem scanFrom_closing (h2 d2 : Char) (w : List Char) (pos : Nat)
    (p1 : h2 = 'h' ∨ h2 = 'H') (p2 : digit16 d2 = true) :
    scanFrom openingRegex ('<' :: '/' :: h2 :: d2 :: '>' :: w) pos 0
      = scanFrom openingRegex w (pos + 5) 0 := by
  have n2 : h2 ≠ '<' := by rcases p1 with p | p <;> rw [p] <;> decide
  rw [scanFrom, opening_none_slash]
  simp only
  rw [scanFrom, opening_none_of_ne '/' _ (by decide)]
  simp only
  rw [scanFrom, opening_none_of_ne h2 _ n2]
  simp only
  rw [scanFrom, opening_none_of_ne d2 _ (digit16_ne_lt d2 p2)]
  simp only
  rw [scanFrom, opening_none_of_ne '>' _ (by decide)]

theorem levels_agree_aux (n : Nat) :
    ∀ (s : List Char), s.length ≤ n → wellFormedHeadings s = true →
      ∀ (pos pos2 : Nat),
        (scanFrom headingRegex s pos 0).map (fun m => parseInt (group headingRegex m 1))
          = (scanFrom openingRegex s pos2 0).map (fun m => parseInt (group openingRegex m 1)) := by
  induction n with
  | zero =>
    intro s hs _ pos pos2
    have : s = [] := List.length_eq_zero.mp (Nat.le_zero.mp hs)
    subst this
    rfl
  | succ n ih =>
    intro s hs hwf pos pos2
    cases s with
    | nil => rfl
    | cons c cs =>
      have hcs : cs.length ≤ n := by simp only [List.length_cons] at hs; omega
      cases hmo : matchItems openingRegex (c :: cs) with
      | none =>
        have hmh := heading_none_of_opening_none _ hmo
        rw [scanFrom, scanFrom, hmo, hmh]
        exact ih cs hcs (wellFormedHeadings_cons c cs hwf) (pos + 1) (pos2 + 1)
      | some osegs =>
        have hclosed := wellFormedHeadings_at _ _ hwf hmo
        obtain ⟨c1, d, attrs, after, e, p1, p2, p3, q⟩ := (opening_iff _ _).mp hmo
        have hdrop : (c :: cs).drop osegs.flatten.length = after := by
          rw [e, q]
          have : '<' :: c1 :: d :: (attrs ++ '>' :: after)
              = [['<'], [c1], [d], attrs, ['>']].flatten ++ after := by simp
          rw [this, List.drop_left]
        rw [hdrop] at hclosed
        obtain ⟨text, h2, d2, w, e2, hne, hno, p4, p5⟩ := (closedByHeading_iff _).mp hclosed
        have hmh : matchItems headingRegex (c :: cs)
            = some [['<'], [c1], [d], attrs, ['>'], text, ['<'], ['/'], [h2], [d2], ['>']] :=
          (heading_iff _ _).mpr
            ⟨c1, d, attrs, text, h2, d2, w, by rw [e, e2], p1, p2, p3, hne, hno, p4, p5, rfl⟩
        have hlenw : w.length ≤ n := by
          have hl := congrArg List.length e
          rw [e2] at hl
          simp only [List.length_cons, List.length_append] at hl hs
          omega
        have hwfw : wellFormedHeadings w = true := by
          have g1 := wellFormedHeadings_drop osegs.flatten.length _ hwf
          rw [hdrop, e2] at g1
          have e3 : text ++ '<' :: '/' :: h2 :: d2 :: '>' :: w
              = (text ++ ['<', '/', h2, d2, '>']) ++ w := by simp
          rw [e3] at g1
          have g2 := wellFormedHeadings_drop (text ++ ['<', '/', h2, d2, '>']).length _ g1
          rw [List.drop_left] at g2
          exact g2
        have hcsH : cs.drop
            ([['<'], [c1], [d], attrs, ['>'], text, ['<'], ['/'], [h2], [d2], ['>']].flatten.length
              - 1) = w := by
          have e5 : cs = c1 :: d :: (attrs ++ '>' :: (text ++ '<' :: '/' :: h2 :: d2 :: '>' :: w)) := by
            rw [e2] at e
            exact (List.cons.inj e).2
          have e6 : c1 :: d :: (attrs ++ '>' :: (text ++ '<' :: '/' :: h2 :: d2 :: '>' :: w))
              = (c1 :: d :: (attrs ++ '>' :: (text ++ ['<', '/', h2, d2, '>']))) ++ w := by simp
          have e7 : [['<'], [c1], [d], attrs, ['>'], text, ['<'], ['/'], [h2], [d2],
              ['>']].flatten.length - 1
              = (c1 :: d :: (attrs ++ '>' :: (text ++ ['<', '/', h2, d2, '>']))).length := by
            simp
          rw [e7, e5, e6, List.drop_left]
        have hcsO : cs.drop (osegs.flatten.length - 1) = after := by
          have e5 : cs = c1 :: d :: (attrs ++ '>' :: after) := (List.cons.inj e).2
          have e6 : c1 :: d :: (attrs ++ '>' :: after) = (c1 :: d :: (attrs ++ ['>'])) ++ after := by
            simp
          have e7 : osegs.flatten.length - 1 = (c1 :: d :: (attrs ++ ['>'])).length := by
            rw [q]; simp
          rw [e7, e5, e6, List.drop_left]
        rw [scanFrom, scanFrom, hmo, hmh]
        simp only [List.map_cons]
        rw [scanFrom_skip headingRegex _ cs, scanFrom_skip openingRegex _ cs, hcsH, hcsO, e2,
          scanFrom_text text hno, scanFrom_closing h2 d2 w _ p4 p5]
        congr 1
        · rw [q]; rfl
        · exact ih w hlenw hwfw _ _

theorem levels_agree (htmlContent : List Char) (hwf : wellFormedHeadings htmlContent = true) :
    (headings htmlContent).map Heading.level = levels htmlContent := by
  have h := levels_agree_aux htmlContent.length htmlContent (le_refl _) hwf 0 0
  simp only [headings, levels, matchAll, List.map_map, Function.comp]
  exact h

theorem fcAssert_ok_iff {α : Type} (prop : α → Except Failure Bool) (draws : List α) :
    fcAssert prop draws = Except.ok () ↔ ∀ x ∈ draws, prop x = Except.ok true := by
  induction draws with
  | nil => simp [fcAssert]
  | cons d ds ih =>
    rw [fcAssert]
    cases hd : prop d with
    | error e => simp [hd]
    | ok v =>
      cases v with
      | false => simp [hd]
      | true => simp [hd, ih]

theorem property4_zero (hs : List Heading) (h : Heading) (h0 : hs[0]? = some h) :
    property4 hs 0 = if h.level = 1 then Except.ok true
      else Except.error (Failure.firstNotH1 h.level) := by
  simp [property4, h0]

theorem property4_succ (hs : List Heading) (i : Nat) (hp hc : Heading)
    (h1 : hs[i]? = some hp) (h2 : hs[i + 1]? = some hc) :
    property4 hs (i + 1) =
      if hc.level > hp.level ∧ ¬ (hc.level - hp.level ≤ 1) then
        Except.error (Failure.jump (i + 1) hp.level hc.level)
      else if hc.text.length > 0 then Except.ok true
      else Except.error Failure.emptyText := by
  simp [property4, h1, h2]

theorem property4_all_iff (hs : List Heading)
    (htext : ∀ i h, 1 ≤ i → hs[i]? = some h → h.text ≠ []) :
    (∀ i, i < hs.length → property4 hs i = Except.ok true) ↔
      checkLevels (hs.map Heading.level) = Except.ok () := by
  constructor
  · intro hall
    cases hs with
    | nil => rfl
    | cons h0 rest =>
      have p0 := hall 0 (by simp)
      rw [property4_zero _ h0 (by simp)] at p0
      have hl : h0.level = 1 := by
        by_contra hne
        rw [if_neg hne] at p0
        cases p0
      simp only [List.map_cons, checkLevels, if_pos hl]
      apply checkJumps_ok
      intro j p c hp hc
      rw [← List.map_cons, List.getElem?_map] at hp hc
      simp only [Option.map_eq_some'] at hp hc
      obtain ⟨a, ha, hap⟩ := hp
      obtain ⟨b, hb, hbc⟩ := hc
      have hlt : j + 1 < (h0 :: rest).length := by
        by_contra hge
        rw [List.getElem?_eq_none (by omega)] at hb
        cases hb
      have pj := hall (j + 1) hlt
      rw [property4_succ _ j a b ha hb] at pj
      by_cases hjump : b.level > a.level ∧ ¬ (b.level - a.level ≤ 1)
      · rw [if_pos hjump] at pj; cases pj
      · rw [← hap, ← hbc]; omega
  · intro hok i hi
    cases i with
    | zero =>
      obtain ⟨h0, hh0⟩ : ∃ h0, hs[0]? = some h0 := ⟨hs[0], by simp [hi]⟩
      rw [property4_zero _ h0 hh0]
      by_cases hl : h0.level = 1
      · rw [if_pos hl]
      · exfalso
        cases hs with
        | nil => simp at hi
        | cons a rest =>
          simp only [List.getElem?_cons_zero, Option.some.injEq] at hh0
          subst hh0
          simp only [List.map_cons, checkLevels, if_neg hl] at hok
          cases hok
    | succ j =>
      obtain ⟨hc, hhc⟩ : ∃ hc, hs[j + 1]? = some hc := ⟨hs[j + 1], by simp [hi]⟩
      have hj : j < hs.length := by omega
      obtain ⟨hp, hhp⟩ : ∃ hp, hs[j]? = some hp := ⟨hs[j], by simp [hj]⟩
      rw [property4_succ _ j hp hc hhp hhc]
      by_cases hjump : hc.level > hp.level ∧ ¬ (hc.level - hp.level ≤ 1)
      · exfalso
        obtain ⟨f, hf⟩ := checkLevels_error (hs.map Heading.level) j hp.level hc.level
          (by rw [List.getElem?_map, hhp]; rfl) (by rw [List.getElem?_map, hhc]; rfl)
          hjump.1 (by omega)
        rw [hf] at hok
        cases hok
      · rw [if_neg hjump]
        have ht := htext (j + 1) hc (by omega) hhc
        rw [if_pos (List.length_pos.mpr ht)]

/-- C19 (the two heading validators agree), counterexample to the claim as
stated: in this document each opening tag is followed by non-empty text without
`<` and a closing tag, and both patterns extract the levels 1, 2; the ordering
test accepts it, while Property 4 with both indices drawn rejects it, because
the text of the second heading is white space only. -/
theorem validators_agree_counterexample :
    wellFormedHeadings "<h1>A</h1><h2> </h2>".toList = true ∧
    (headings "<h1>A</h1><h2> </h2>".toList).map Heading.level = [1, 2] ∧
    levels "<h1>A</h1><h2> </h2>".toList = [1, 2] ∧
    headingOrderTest "<h1>A</h1><h2> </h2>".toList = Except.ok () ∧
    property4Test "<h1>A</h1><h2> </h2>".toList [0, 1] = Except.error Failure.emptyText := by
  decide

/-- C19 (the two heading validators agree, amended): in a document in which each
heading opening tag is followed by non-empty text without `<` and then a
closing heading tag, the levels extracted by the pattern of Property 4 are the
levels extracted by the opening-tag pattern.  If moreover no heading after the
first has text that is white space only, the ordering test accepts the document
exactly when the property of Property 4 holds at every heading index, which for
a document with a heading is when the property test passes on draws that cover
every index. -/
theorem validators_agree (htmlContent : List Char)
    (hwf : wellFormedHeadings htmlContent = true) :
    (headings htmlContent).map Heading.level = levels htmlContent ∧
    ((∀ i h, 1 ≤ i → (headings htmlContent)[i]? = some h → h.text ≠ []) →
      ((∀ i, i < (headings htmlContent).length →
          property4 (headings htmlContent) i = Except.ok true) ↔
        headingOrderTest htmlContent = Except.ok ()) ∧
      (∀ draws : List Nat, headings htmlContent ≠ [] →
        (∀ i, i < (headings htmlContent).length → i ∈ draws) →
        (property4Test htmlContent draws = Except.ok () ↔
          headingOrderTest htmlContent = Except.ok ()))) := by
  have hlv := levels_agree htmlContent hwf
  refine ⟨hlv, ?_⟩
  intro htext
  have hall := property4_all_iff (headings htmlContent) htext
  rw [hlv] at hall
  refine ⟨hall, ?_⟩
  intro draws _ hcover
  rw [← show checkLevels (levels htmlContent) = Except.ok () ↔
      headingOrderTest htmlContent = Except.ok () from Iff.rfl, ← hall]
  unfold property4Test
  rw [fcAssert_ok_iff]
  constructor
  · intro h i hi
    exact h i (hcover i hi)
  · intro h x _
    by_cases hx : x < (headings htmlContent).length
    · exact h x hx
    · have hnone : (headings htmlContent)[x]? = none := List.getElem?_eq_none (by omega)
      simp [property4, hnone]

/-- Witness of C19: three well-formed headings with the levels 1, 2, 1. -/
theorem validators_agree_witness :
    wellFormedHeadings "<h1>A</h1><h2 id=b>B</h2><h1>C</h1>".toList = true ∧
    (headings "<h1>A</h1><h2 id=b>B</h2><h1>C</h1>".toList).map Heading.level
      = levels "<h1>A</h1><h2 id=b>B</h2><h1>C</h1>".toList ∧
    (property4Test "<h1>A</h1><h2 id=b>B</h2><h1>C</h1>".toList [2, 0, 1] = Except.ok () ↔
      headingOrderTest "<h1>A</h1><h2 id=b>B</h2><h1>C</h1>".toList = Except.ok ()) :=
  ⟨by decide,
   (validators_agree "<h1>A</h1><h2 id=b>B</h2><h1>C</h1>".toList (by decide)).1,
   ((validators_agree "<h1>A</h1><h2 id=b>B</h2><h1>C</h1>".toList (by decide)).2 (by
      have hd : headings "<h1>A</h1><h2 id=b>B</h2><h1>C</h1>".toList
          = [⟨1, ['A'], 0⟩, ⟨2, ['B'], 10⟩, ⟨1, ['C'], 25⟩] := by decide
      rw [hd]
      intro i h hi hh
      match i, hi, hh with
      | 1, _, hh => simp at hh; rw [← hh]; simp
      | 2, _, hh => simp at hh; rw [← hh]; simp
      | n + 3, _, hh => simp at hh)).2 [2, 0, 1] (by decide) (by
      have hd : (headings "<h1>A</h1><h2 id=b>B</h2><h1>C</h1>".toList).length = 3 := by decide
      rw [hd]
      intro i hi
      interval_cases i <;> simp)⟩

/-! ## Lemmas on the tags of a document -/

theorem flatten_map_singleton (l : List Char) : (l.map fun c => [c]).flatten = l := by
  induction l with
  | nil => rfl
  | cons a as ih => simp only [List.map_cons, List.flatten_cons, ih, List.singleton_append]

theorem startsWithNoCase_length (ps : List Char) :
    ∀ s : List Char, startsWithNoCase s ps = true → ps.length ≤ s.length := by
  induction ps with
  | nil => intro s _; exact Nat.zero_le _
  | cons p ps ih =>
    intro s h
    cases s with
    | nil => simp [startsWithNoCase] at h
    | cons c cs =>
      simp only [startsWithNoCase, Bool.and_eq_true] at h
      simp only [List.length_cons]
      exact Nat.succ_le_succ (ih cs h.2)

theorem matchItems_map_lit (ps : List Char) (rest : List Item) :
    ∀ s : List Char, matchItems (ps.map lit ++ rest) s =
      if startsWithNoCase s ps then
        (matchItems rest (s.drop ps.length)).map fun r => ((s.take ps.length).map fun c => [c]) ++ r
      else none := by
  induction ps with
  | nil =>
    intro s
    have h : startsWithNoCase s [] = true := by cases s <;> rfl
    simp [h]
  | cons p ps ih =>
    intro s
    cases s with
    | nil =>
      simp only [List.map_cons, List.cons_append, startsWithNoCase, Bool.false_eq_true, if_false]
      cases hm : matchItems (lit p :: (List.map lit ps ++ rest)) [] with
      | none => rfl
      | some r =>
        obtain ⟨c, cs, r2, e, _⟩ := (matchItems_lit _ _ _ _).mp hm
        cases e
    | cons c cs =>
      simp only [List.map_cons, List.cons_append, startsWithNoCase]
      by_cases hc : (c.toUpper == p.toUpper) = true
      · have hstep : matchItems (lit p :: (List.map lit ps ++ rest)) (c :: cs)
            = (matchItems (List.map lit ps ++ rest) cs).map fun r => [c] :: r := by
          show matchItems (⟨_, Quant.one, false⟩ :: _) (c :: cs) = _
          rw [matchItems]
          simp only [hc, if_true]
        rw [hstep, ih cs]
        simp only [hc, Bool.true_and, List.length_cons, List.drop_succ_cons, List.take_succ_cons,
          List.map_cons]
        by_cases hs : startsWithNoCase cs ps = true
        · simp only [hs, if_true, Option.map_map]
          rfl
        · simp only [hs, Bool.false_eq_true, if_false, Option.map_none']
      · have hstep : matchItems (lit p :: (List.map lit ps ++ rest)) (c :: cs) = none :=
          matchItems_lit_ne _ _ _ _ hc
        rw [hstep]
        simp [hc]

theorem contains_gt_iff (l : List Char) :
    l.contains '>' = true ↔ ∃ after, l.dropWhile (notChar '>') = '>' :: after := by
  induction l with
  | nil => simp
  | cons a as ih =>
    by_cases ha : a = '>'
    · subst ha
      simp [notChar]
    · have hn : notChar '>' a = true := by simpa [notChar] using ha
      rw [List.dropWhile_cons_of_pos hn, ← ih]
      simp [ha]
      intro h
      exact absurd h.symm ha

theorem matchItems_attrs (s : List Char) :
    matchItems [⟨notChar '>', Quant.star, false⟩, lit '>'] s =
      if s.contains '>' then some [s.takeWhile (notChar '>'), ['>']] else none := by
  by_cases hc : s.contains '>' = true
  · rw [if_pos hc]
    obtain ⟨after, ha⟩ := (contains_gt_iff s).mp hc
    exact (matchItems_star_gt [] s _).mpr ⟨after, [], ha, by simp only [matchItems], rfl⟩
  · rw [if_neg hc]
    cases hm : matchItems [⟨notChar '>', Quant.star, false⟩, lit '>'] s with
    | none => rfl
    | some r =>
      obtain ⟨after, r2, ha, _⟩ := (matchItems_star_gt [] s r).mp hm
      exact absurd ((contains_gt_iff s).mpr ⟨after, ha⟩) hc

theorem tagRegex_eq (t : String) :
    tagRegex t = ('<' :: t.toList).map lit ++ [⟨notChar '>', Quant.star, false⟩, lit '>'] := by
  simp [tagRegex, lits]

theorem closingTagRegex_eq (t : String) :
    closingTagRegex t = ('<' :: '/' :: t.toList ++ ['>']).map lit ++ [] := by
  simp [closingTagRegex, lits]

theorem tag_length_eq (t : String) (s : List Char)
    (hexact : startsWithNoCase s ('<' :: t.toList) = true →
      match s.drop (t.toList.length + 1) with
      | [] => True
      | x :: _ => endsTagName x = true) :
    (matchItems (tagRegex t) s).map (fun segs => segs.flatten.length)
      = openingTagLength t.toList s := by
  rw [tagRegex_eq, matchItems_map_lit]
  unfold openingTagLength
  by_cases hs : startsWithNoCase s ('<' :: t.toList) = true
  · have hlen := startsWithNoCase_length _ _ hs
    have hx := hexact hs
    simp only [hs, if_true, List.length_cons, matchItems_attrs]
    cases hd : s.drop (t.toList.length + 1) with
    | nil => simp
    | cons c rest =>
      rw [hd] at hx
      simp only at hx
      simp only [hx, Bool.true_and]
      by_cases hc : (c :: rest).contains '>' = true
      · simp only [hc, if_true, Option.map_some', Option.some.injEq, List.flatten_append,
          flatten_map_singleton, List.length_append, List.length_take]
        simp only [List.length_cons] at hlen
        have e : ∀ l : List Char, [l, ['>']].flatten.length = l.length + 1 := by
          intro l; simp
        rw [e, Nat.min_eq_left hlen]
        have e2 : (fun x : Char => x != '>') = notChar '>' := rfl
        rw [e2]
        omega
      · simp only [hc, Bool.false_eq_true, if_false, Option.map_none']
  · simp only [hs, Bool.false_eq_true, if_false, Option.map_none']

theorem namesExact_cons (name : List Char) (c : Char) (cs : List Char)
    (h : namesExact name (c :: cs) = true) :
    (startsWithNoCase (c :: cs) ('<' :: name) = true →
      match (c :: cs).drop (name.length + 1) with
      | [] => True
      | x :: _ => endsTagName x = true) ∧
    namesExact name cs = true := by
  rw [namesExact, Bool.and_eq_true] at h
  refine ⟨?_, h.2⟩
  intro hs
  have h1 := h.1
  rw [if_pos hs] at h1
  cases hd : (c :: cs).drop (name.length + 1) with
  | nil => trivial
  | cons x rest => rw [hd] at h1; exact h1

theorem openTags_count (t : String) (s : List Char) :
    ∀ (pos skip : Nat), namesExact t.toList s = true →
      (scanFrom (tagRegex t) s pos skip).length = countOpeningTags t.toList s skip := by
  induction s with
  | nil => intro pos skip _; rfl
  | cons c cs ih =>
    intro pos skip h
    obtain ⟨h1, h2⟩ := namesExact_cons _ c cs h
    cases skip with
    | succ skip => rw [scanFrom, countOpeningTags]; exact ih (pos + 1) skip h2
    | zero =>
      have hl := tag_length_eq t (c :: cs) h1
      rw [scanFrom, countOpeningTags]
      cases hm : matchItems (tagRegex t) (c :: cs) with
      | none =>
        rw [hm] at hl
        simp only [Option.map_none'] at hl
        rw [← hl]
        exact ih (pos + 1) 0 h2
      | some segs =>
        rw [hm] at hl
        simp only [Option.map_some'] at hl
        rw [← hl]
        simp only [List.length_cons]
        rw [ih (pos + 1) _ h2]
        omega

theorem closeTags_count (t : String) (s : List Char) :
    ∀ (pos skip : Nat),
      (scanFrom (closingTagRegex t) s pos skip).length = countClosingTags t.toList s skip := by
  induction s with
  | nil => intro pos skip; rfl
  | cons c cs ih =>
    intro pos skip
    cases skip with
    | succ skip => rw [scanFrom, countClosingTags]; exact ih (pos + 1) skip
    | zero =>
      have hm : matchItems (closingTagRegex t) (c :: cs) =
          if startsWithNoCase (c :: cs) ('<' :: '/' :: t.toList ++ ['>']) then
            some (((c :: cs).take ('<' :: '/' :: t.toList ++ ['>']).length).map fun x => [x])
          else none := by
        rw [closingTagRegex_eq, matchItems_map_lit]
        simp only [matchItems, Option.map_some', List.append_nil]
      rw [scanFrom, countClosingTags, hm]
      by_cases hs : startsWithNoCase (c :: cs) ('<' :: '/' :: t.toList ++ ['>']) = true
      · have hlen := startsWithNoCase_length _ _ hs
        simp only [hs, if_true, flatten_map_singleton, List.length_take, List.length_cons]
        rw [ih (pos + 1)]
        simp only [List.length_cons, List.length_append, List.length_nil] at hlen ⊢
        rw [Nat.min_eq_left hlen]
        have e3 : t.toList.length + 0 + 1 + 1 + 1 - 1 = t.toList.length + 2 := by omega
        rw [e3]
        omega
      · simp only [hs, Bool.false_eq_true, if_false]
        exact ih (pos + 1) 0

theorem openTags_length (t : String) (htmlContent : List Char)
    (h : namesExact t.toList htmlContent = true) :
    (openTags htmlContent t).length = countOpeningTags t.toList htmlContent 0 := by
  simp only [openTags, matchAll, List.length_map]
  exact openTags_count t htmlContent 0 0 h

theorem closeTags_length (t : String) (htmlContent : List Char) :
    (closeTags htmlContent t).length = countClosingTags t.toList htmlContent 0 := by
  simp only [closeTags, matchAll, List.length_map]
  exact closeTags_count t htmlContent 0 0

/-- C5 (tag balance), counterexample to the claim as stated: the document has no
opening tag of `nav` and one closing tag `</nav>`, so the two numbers differ,
yet the property passes for `nav` and the test passes for every tag; no tag
name of the document merely begins with `nav`. -/
theorem tag_balance_counterexample :
    semanticTagProperty (fun s => s.map Char.toLower) "<main></main></nav>".toList "nav"
      = Except.ok true ∧
    semanticTagTest (fun s => s.map Char.toLower) "<main></main></nav>".toList semanticTags
      = Except.ok () ∧
    countOpeningTags "nav".toList "<main></main></nav>".toList 0 = 0 ∧
    countClosingTags "nav".toList "<main></main></nav>".toList 0 = 1 ∧
    namesExact "nav".toList "<main></main></nav>".toList = true := by
  decide

/-- C5 (tag balance, amended): for each of the seven semantic tags `t` and every
document no tag name of which merely begins with `t`, the property passes only
if the document has no opening tag of `t` or has as many opening tags of `t` as
closing tags `</t>`; so does the test whenever the tag is drawn.  The tags are
those of the document, counted on the text. -/
theorem tag_balance (toLowerCase : List Char → List Char) (htmlContent : List Char)
    (t : String)
    (_ht : t ∈ ["header", "nav", "main", "footer", "section", "article", "aside"])
    (hexact : namesExact t.toList htmlContent = true) :
    (semanticTagProperty toLowerCase htmlContent t = Except.ok true →
      countOpeningTags t.toList htmlContent 0 = 0 ∨
        countOpeningTags t.toList htmlContent 0 = countClosingTags t.toList htmlContent 0) ∧
    (∀ draws : List String, t ∈ draws →
      semanticTagTest toLowerCase htmlContent draws = Except.ok () →
      countOpeningTags t.toList htmlContent 0 = 0 ∨
        countOpeningTags t.toList htmlContent 0 = countClosingTags t.toList htmlContent 0) := by
  have key : ∀ v, semanticTagProperty toLowerCase htmlContent t = Except.ok v →
      countOpeningTags t.toList htmlContent 0 = 0 ∨
        countOpeningTags t.toList htmlContent 0 = countClosingTags t.toList htmlContent 0 := by
    intro v hok
    have h := semanticTagProperty_ok toLowerCase htmlContent t v hok
    rw [openTags_length t htmlContent hexact, closeTags_length] at h
    exact h
  refine ⟨key true, ?_⟩
  intro draws hd hok
  obtain ⟨v, hv⟩ := fcAssert_ok _ draws t hd hok
  exact key v hv

/-- Witness of C5: a document with two `nav` elements, one written in capitals
and with an attribute. -/
theorem tag_balance_witness :
    semanticTagProperty (fun s => s.map Char.toLower)
        "<nav class=\"a\"></nav><NAV></NAV>".toList "nav" = Except.ok true ∧
    countOpeningTags "nav".toList "<nav class=\"a\"></nav><NAV></NAV>".toList 0 = 2 ∧
    (countOpeningTags "nav".toList "<nav class=\"a\"></nav><NAV></NAV>".toList 0 = 0 ∨
      countOpeningTags "nav".toList "<nav class=\"a\"></nav><NAV></NAV>".toList 0
        = countClosingTags "nav".toList "<nav class=\"a\"></nav><NAV></NAV>".toList 0) :=
  ⟨by decide, by decide,
   (tag_balance (fun s => s.map Char.toLower) "<nav class=\"a\"></nav><NAV></NAV>".toList "nav"
      (by decide) (by decide)).1 (by decide)⟩

/-! ## Lemmas on clicks -/

theorem onDOMContentLoaded_fields (b : Browser) (p : Page) :
    (onDOMContentLoaded b p).elements = p.elements ∧
    (onDOMContentLoaded b p).clickListeners
      = p.clickListeners ++ (hashLinks p).map fun a => a.node := by
  unfold onDOMContentLoaded
  simp only [preloadResources, criticalImages, List.foldl, initSmoothScroll, optimizeImages,
    Page.log, hashLinks]
  split_ifs <;> exact ⟨rfl, rfl⟩

theorem smoothScrollClick_congr (p q : Page) (link : Anchor) (h : q.elements = p.elements) :
    smoothScrollClick q link = smoothScrollClick p link := by
  simp only [smoothScrollClick, getElementById, h]

theorem click_fold (r : ClickOutcome) (l : List Nat) :
    ∀ out : ClickOutcome,
      l.foldl (fun out _ =>
          (⟨out.defaultPrevented || r.defaultPrevented, out.frames ++ r.frames,
            out.thrown.orElse fun _ => r.thrown⟩ : ClickOutcome)) out
        = ⟨out.defaultPrevented || (!l.isEmpty && r.defaultPrevented),
            out.frames ++ (List.replicate l.length r.frames).flatten,
            out.thrown.orElse fun _ => if l.isEmpty then none else r.thrown⟩ := by
  induction l with
  | nil =>
    intro out
    cases out with
    | mk d f t => cases t <;> simp
  | cons a as ih =>
    intro out
    rw [List.foldl_cons, ih]
    cases out with
    | mk d f t =>
      simp only [List.isEmpty_cons, Bool.not_false, Bool.true_and, List.length_cons,
        List.replicate_succ, List.flatten_cons, List.append_assoc, Bool.false_eq_true, if_false,
        ClickOutcome.mk.injEq, true_and]
      constructor
      · cases d <;> cases r.defaultPrevented <;> cases as <;> rfl
      · cases t <;> cases r.thrown <;> cases as <;> rfl

theorem click_eq (p : Page) (link : Anchor) :
    click p link =
      ⟨!(p.clickListeners.filter fun n => n == link.node).isEmpty &&
          (smoothScrollClick p link).defaultPrevented,
        (List.replicate (p.clickListeners.filter fun n => n == link.node).length
          (smoothScrollClick p link).frames).flatten,
        if (p.clickListeners.filter fun n => n == link.node).isEmpty then none
        else (smoothScrollClick p link).thrown⟩ := by
  unfold click
  rw [click_fold]
  simp

theorem mem_clickListeners (b : Browser) (p : Page) (link : Anchor) (rest : List Char)
    (hlink : link ∈ p.anchors) (hhref : link.href = some ('#' :: rest)) :
    link.node ∈ (onDOMContentLoaded b p).clickListeners := by
  rw [(onDOMContentLoaded_fields b p).2]
  apply List.mem_append_right
  apply List.mem_map.mpr
  refine ⟨link, ?_, rfl⟩
  unfold hashLinks
  rw [List.mem_filter]
  exact ⟨hlink, by rw [hhref]; rfl⟩

/-- C9 (smooth-scroll handler): the script registers its `DOMContentLoaded`
listener, and once that listener has run every anchor of the document whose
`href` is `#` followed by `rest` carries the click listener.  A click on such an
anchor then has its default action prevented and throws nothing; a scroll is
scheduled exactly when the document has an element whose ID is `rest`; every
scheduled scroll is a smooth scroll to the start of that element (the element
with that ID when the ID is unique); without such an element, and for
`href="#"`, nothing is scheduled.  On a page without earlier click listeners
and with one anchor per node the click runs the listener once. -/
theorem smooth_scroll_handler (b : Browser) (p : Page) (link : Anchor) (rest : List Char)
    (hlink : link ∈ p.anchors) (hhref : link.href = some ('#' :: rest)) :
    (∀ p0 : Page, "DOMContentLoaded" ∈ (mainFunction b p0).documentListeners) ∧
    link.node ∈ (onDOMContentLoaded b p).clickListeners ∧
    (click (onDOMContentLoaded b p) link).defaultPrevented = true ∧
    (click (onDOMContentLoaded b p) link).thrown = none ∧
    ((click (onDOMContentLoaded b p) link).frames ≠ [] ↔
      ∃ e ∈ p.elements, e.id ≠ [] ∧ e.id = rest) ∧
    (∀ e ∈ p.elements, e.id ≠ [] → e.id = rest →
      (∀ e2 ∈ p.elements, e2.id = rest → e2 = e) →
      ∀ f ∈ (click (onDOMContentLoaded b p) link).frames, f = ⟨e.node, "smooth", "start"⟩) ∧
    ((∀ e ∈ p.elements, e.id ≠ rest) → (click (onDOMContentLoaded b p) link).frames = []) ∧
    (rest = [] → (click (onDOMContentLoaded b p) link).frames = []) ∧
    (p.clickListeners = [] → (p.anchors.map fun a => a.node).Nodup →
      click (onDOMContentLoaded b p) link = smoothScrollClick p link) := by
  have hmem := mem_clickListeners b p link rest hlink hhref
  have hcongr := smoothScrollClick_congr p (onDOMContentLoaded b p) link
    (onDOMContentLoaded_fields b p).1
  have hlinkeq : link = ⟨link.node, some ('#' :: rest)⟩ := by
    cases link with
    | mk n h => simp only at hhref; rw [hhref]
  obtain ⟨s1, s2, s3, _, s5, s6, _⟩ := smoothScrollClick_spec p link.node rest
  rw [← hlinkeq] at s1 s2 s3 s5 s6
  have hne : (List.filter (fun n => n == link.node)
      (onDOMContentLoaded b p).clickListeners) ≠ [] := by
    intro h0
    have : link.node ∈ List.filter (fun n => n == link.node)
        (onDOMContentLoaded b p).clickListeners :=
      List.mem_filter.mpr ⟨hmem, beq_self_eq_true _⟩
    rw [h0] at this
    cases this
  have hlen : 0 < (List.filter (fun n => n == link.node)
      (onDOMContentLoaded b p).clickListeners).length := List.length_pos.mpr hne
  have hempty : (List.filter (fun n => n == link.node)
      (onDOMContentLoaded b p).clickListeners).isEmpty = false := by
    cases hf : List.filter (fun n => n == link.node) (onDOMContentLoaded b p).clickListeners with
    | nil => exact absurd hf hne
    | cons a as => rfl
  have hframes : ∀ f, f ∈ (click (onDOMContentLoaded b p) link).frames ↔
      f ∈ (smoothScrollClick p link).frames := by
    intro f
    rw [click_eq, hcongr]
    simp only [List.mem_flatten, List.mem_replicate]
    constructor
    · rintro ⟨l, ⟨_, hl⟩, hf⟩; rw [hl] at hf; exact hf
    · intro hf; exact ⟨_, ⟨by omega, rfl⟩, hf⟩
  have hnil : (click (onDOMContentLoaded b p) link).frames = [] ↔
      (smoothScrollClick p link).frames = [] := by
    constructor
    · intro h
      apply List.eq_nil_iff_forall_not_mem.mpr
      intro f hf
      have := (hframes f).mpr hf
      rw [h] at this
      cases this
    · intro h
      apply List.eq_nil_iff_forall_not_mem.mpr
      intro f hf
      have := (hframes f).mp hf
      rw [h] at this
      cases this
  refine ⟨?_, hmem, ?_, ?_, ?_, ?_, ?_, ?_, ?_⟩
  · intro p0
    unfold mainFunction
    split_ifs <;> simp
  · rw [click_eq, hcongr, hempty, s1]; rfl
  · rw [click_eq, hcongr, hempty, s2]; rfl
  · rw [← s3, not_iff_not]; exact hnil
  · intro e he hid1 hid2 huniq f hf
    have h1 := s5 e he hid1 hid2 huniq
    have h2 := (hframes f).mp hf
    rw [h1] at h2
    simpa using h2
  · intro hno
    exact hnil.mpr (s6 hno)
  · intro hrest
    apply hnil.mpr
    by_contra hcon
    obtain ⟨e, _, hne2, hid2⟩ := s3.mp hcon
    rw [hrest] at hid2
    exact hne2 hid2
  · intro hfresh hnodup
    have hcount : (List.filter (fun n => n == link.node)
        (onDOMContentLoaded b p).clickListeners).length = 1 := by
      rw [(onDOMContentLoaded_fields b p).2, hfresh, List.nil_append,
        ← List.countP_eq_length_filter]
      have hsub : ((hashLinks p).map fun a => a.node).Nodup :=
        hnodup.sublist ((List.filter_sublist _).map _)
      have hm : link.node ∈ (hashLinks p).map fun a => a.node := by
        apply List.mem_map.mpr
        exact ⟨link, List.mem_filter.mpr ⟨hlink, by rw [hhref]; rfl⟩, rfl⟩
      exact List.count_eq_one_of_mem hsub hm
    rw [click_eq, hcongr, hempty, hcount]
    cases hr : smoothScrollClick p link with
    | mk d f t =>
      rw [hr] at s2
      simp only at s2
      simp [s2]

/-- Witness of C9: a page with the anchors `#top` and `#` and the element `top`,
in a browser without the CSS API. -/
theorem smooth_scroll_handler_witness :
    (click
        (onDOMContentLoaded
          ⟨true, false, true, CssApi.absent, true, true, true, true, "Mozilla".toList⟩
          ⟨[], [⟨3, some "#top".toList⟩, ⟨4, some ['#']⟩], [⟨5, "top".toList⟩, ⟨6, []⟩], [],
            [], [], [], [], [], false, [], [], false, false⟩)
        ⟨3, some "#top".toList⟩).defaultPrevented = true ∧
    (click
        (onDOMContentLoaded
          ⟨true, false, true, CssApi.absent, true, true, true, true, "Mozilla".toList⟩
          ⟨[], [⟨3, some "#top".toList⟩, ⟨4, some ['#']⟩], [⟨5, "top".toList⟩, ⟨6, []⟩], [],
            [], [], [], [], [], false, [], [], false, false⟩)
        ⟨3, some "#top".toList⟩).frames = [⟨5, "smooth", "start"⟩] ∧
    (click
        (onDOMContentLoaded
          ⟨true, false, true, CssApi.absent, true, true, true, true, "Mozilla".toList⟩
          ⟨[], [⟨3, some "#top".toList⟩, ⟨4, some ['#']⟩], [⟨5, "top".toList⟩, ⟨6, []⟩], [],
            [], [], [], [], [], false, [], [], false, false⟩)
        ⟨4, some ['#']⟩).frames = [] :=
  ⟨(smooth_scroll_handler
      ⟨true, false, true, CssApi.absent, true, true, true, true, "Mozilla".toList⟩
      ⟨[], [⟨3, some "#top".toList⟩, ⟨4, some ['#']⟩], [⟨5, "top".toList⟩, ⟨6, []⟩], [],
        [], [], [], [], [], false, [], [], false, false⟩
      ⟨3, some "#top".toList⟩ "top".toList (by decide) rfl).2.2.1,
   by decide,
   (smooth_scroll_handler
      ⟨true, false, true, CssApi.absent, true, true, true, true, "Mozilla".toList⟩
      ⟨[], [⟨3, some "#top".toList⟩, ⟨4, some ['#']⟩], [⟨5, "top".toList⟩, ⟨6, []⟩], [],
        [], [], [], [], [], false, [], [], false, false⟩
      ⟨4, some ['#']⟩ [] (by decide) rfl).2.2.2.2.2.2.2.1 rfl⟩

/-- C17 (browser class tagging), counterexample to the claim as stated: in a
browser with `CSS.supports` and the user agent `Mozilla/5.0`, on a page whose
body carries the class `firefox`, the script loads and the body still has the
class `firefox`, although the user agent does not contain `Firefox`. -/
theorem browser_class_tagging_counterexample :
    loadScript ⟨false, false, true, CssApi.supports fun _ _ => true, false, false, true, true,
        "Mozilla/5.0".toList⟩
      ⟨[], [], [], [], ["firefox"], [], [], [], [], false, [], [], false, false⟩
      = Except.ok
        ⟨[], [], [], [], ["firefox"], [], ["浏览器支持情况:"], ["DOMContentLoaded"], [], false,
          [], [], false, false⟩ ∧
    "firefox" ∈ (⟨[], [], [], [], ["firefox"], [], ["浏览器支持情况:"], ["DOMContentLoaded"],
        [], false, [], [], false, false⟩ : Page).bodyClasses ∧
    ¬ "Firefox".toList <:+: "Mozilla/5.0".toList :=
  ⟨by rfl, by decide, (indexOf_eq_iff _ _).mp (by decide)⟩

/-- C17 (browser class tagging, amended): when the script has run to completion,
the body has class `ie11` iff it had that class before or the user agent
contains `Trident`, class `firefox` iff it had it before or the user agent
contains `Firefox`, and class `safari` iff it had it before or the user agent
contains `Safari` and does not contain `Chrome`.  So for a user agent that
contains `Chrome` the body has class `safari` afterwards only if it had it
before, and every other class is on the body afterwards iff it was before. -/
theorem browser_class_tagging (b : Browser) (p q : Page)
    (hload : loadScript b p = Except.ok q) :
    ("ie11" ∈ q.bodyClasses ↔
      "ie11" ∈ p.bodyClasses ∨ "Trident".toList <:+: b.userAgent) ∧
    ("firefox" ∈ q.bodyClasses ↔
      "firefox" ∈ p.bodyClasses ∨ "Firefox".toList <:+: b.userAgent) ∧
    ("safari" ∈ q.bodyClasses ↔
      "safari" ∈ p.bodyClasses ∨
        ("Safari".toList <:+: b.userAgent ∧ ¬ "Chrome".toList <:+: b.userAgent)) ∧
    ("Chrome".toList <:+: b.userAgent →
      ("safari" ∈ q.bodyClasses ↔ "safari" ∈ p.bodyClasses)) ∧
    (∀ x : String, x ≠ "ie11" → x ≠ "firefox" → x ≠ "safari" →
      (x ∈ q.bodyClasses ↔ x ∈ p.bodyClasses)) := by
  have hmem := mem_loadScript_bodyClasses b p q hload
  have hs : "safari" ∈ q.bodyClasses ↔
      "safari" ∈ p.bodyClasses ∨
        ("Safari".toList <:+: b.userAgent ∧ ¬ "Chrome".toList <:+: b.userAgent) := by
    rw [hmem]; simp
  refine ⟨?_, ?_, hs, ?_, ?_⟩
  · rw [hmem]; simp
  · rw [hmem]; simp
  · intro hc
    rw [hs]
    constructor
    · rintro (h | h)
      · exact h
      · exact absurd hc h.2
    · exact Or.inl
  · intro x h1 h2 h3
    rw [hmem]
    simp [h1, h2, h3]

/-- Witness of C17: a Chrome user agent, which names both `Chrome` and
`Safari`, on a page whose body has the class `page`. -/
theorem browser_class_tagging_witness :
    loadScript ⟨false, false, true, CssApi.supports fun _ _ => true, false, false, true, true,
        "Mozilla/5.0 Chrome/120.0 Safari/537.36".toList⟩
      ⟨[], [], [], [], ["page"], [], [], [], [], false, [], [], false, false⟩
      = Except.ok
        ⟨[], [], [], [], ["page"], [], ["浏览器支持情况:"], ["DOMContentLoaded"], [], false, [],
          [], false, false⟩ ∧
    ("safari" ∈ (⟨[], [], [], [], ["page"], [], ["浏览器支持情况:"], ["DOMContentLoaded"], [],
        false, [], [], false, false⟩ : Page).bodyClasses ↔
      "safari" ∈ (⟨[], [], [], [], ["page"], [], [], [], [], false, [], [], false,
        false⟩ : Page).bodyClasses) :=
  ⟨by rfl,
   (browser_class_tagging
      ⟨false, false, true, CssApi.supports fun _ _ => true, false, false, true, true,
        "Mozilla/5.0 Chrome/120.0 Safari/537.36".toList⟩
      ⟨[], [], [], [], ["page"], [], [], [], [], false, [], [], false, false⟩
      ⟨[], [], [], [], ["page"], [], ["浏览器支持情况:"], ["DOMContentLoaded"], [], false, [],
        [], false, false⟩
      (by rfl)).2.2.2.1 ((indexOf_ne_iff _ _).mp (by decide))⟩

end WebPage
